import Mathlib

/-!
Verification development for the geobbolt embedded geospatial store.

The Go sources are shallowly embedded:
* byte strings (`[]byte`, `string`) become `Bytes := List Nat`;
* the two bbolt buckets become association lists with overwrite-on-put;
* `binary.PutUvarint` / `binary.ReadUvarint` are implemented concretely
  (base-128 little-endian with the 10-byte / overflow limits of the Go
  standard library; the Go bit-or into disjoint bit ranges is written as
  addition of the corresponding multiples of powers of 128);
* the external S2 library (shape codecs, region coverer, region term
  indexer, geometric predicates and distances) is a parameter `S2Lib`;
  theorems assume exactly the contracts the library documents, and
  concrete toy instances discharge those contracts in witnesses;
* floating point distances become `ℚ`.
-/

/-- Bytes of the Go byte slices and strings. Each entry stands for one
byte, always below 256 in every value the model constructs. -/
abbrev Bytes := List Nat

/-- Fuel-driven loop of `binary.PutUvarint`; the fuel only serves
structural termination and any fuel of at least `n` gives the value
(`putUvarintGo_congr`). -/
def putUvarintGo : Nat → Nat → Bytes
  | 0, n => [n]
  | fuel + 1, n => if n < 128 then [n] else (n % 128 + 128) :: putUvarintGo fuel (n / 128)

/-- Model of `binary.PutUvarint`: little-endian base-128 with continuation
bit, as emitted by the Go standard library. -/
def putUvarint (n : Nat) : Bytes :=
  putUvarintGo n n

/-- Loop of `binary.ReadUvarint`: at most 10 bytes, the tenth must be 0 or 1
(otherwise 64-bit overflow), a continuation byte contributes its low 7 bits.
Go accumulates with bit-or into disjoint bit positions, written here as
addition of `b * 128 ^ i`. `none` models both the EOF error and the
overflow error of the Go loop. -/
def readUvarintLoop : Bytes → Nat → Nat → Option (Nat × Bytes)
  | bs, x, i =>
    if 10 ≤ i then none
    else
      match bs with
      | [] => none
      | b :: rest =>
        if b < 128 then
          if i = 9 ∧ 1 < b then none
          else some (x + b * 128 ^ i, rest)
        else readUvarintLoop rest (x + b % 128 * 128 ^ i) (i + 1)

/-- Model of `binary.ReadUvarint` on a byte stream. -/
def readUvarint (bs : Bytes) : Option (Nat × Bytes) :=
  readUvarintLoop bs 0 0

/-! ## Data model

The S2 geometric payloads that the repository treats as opaque library
values are represented by atoms: a unit-sphere point (`s2.Point`) and the
loop data of an `s2.Polygon` are `Nat` atoms whose byte codings and
geometric behaviour are supplied by an `S2Lib` instance. -/

/-- Atom standing for an `s2.Point` (a unit vector on the sphere). -/
abbrev S2Point := Nat

/-- Atom standing for the loop data of an `s2.Polygon`. -/
abbrev PolyBody := Nat

/-- Atom standing for an `s2.CellID`. -/
abbrev CellId := Nat

/-- Atom standing for a parsed property map (`map[string]any`). -/
abbrev PropsV := Nat

/-- The three supported `s2.Shape` variants of the blob codec
(`typePointVector = 1`, `typePolyline = 2`, `typePolygon = 3`). -/
inductive S2ShapeM where
  | pointVector (pts : List S2Point)
  | polyline (pts : List S2Point)
  | polygon (body : PolyBody)
deriving DecidableEq, Repr

/-- The `s2.Region` variants fed to the term indexer: the repository's
`PointRegion` wrapper, a polyline, or a polygon. -/
inductive RegionM where
  | pointRegion (p : S2Point)
  | polylineRegion (pts : List S2Point)
  | polygonRegion (body : PolyBody)
deriving DecidableEq, Repr

/-- Bundle of the external library operations the store uses: the S2 shape
codecs, the shape-index codec, the region coverer and term indexer, the
geometric predicates and distances, and JSON marshalling. Every theorem
states the library contracts it relies on as explicit hypotheses. -/
structure S2Lib where
  /-- Byte coding written by `s2.Point.Encode` (three raw float64). -/
  pointEnc : S2Point → Bytes
  /-- Inverse stream reader `s2.Point.Decode`; returns the rest. -/
  pointDec : Bytes → Option (S2Point × Bytes)
  /-- Byte coding written by `s2.Polyline.Encode`. -/
  polylineEnc : List S2Point → Bytes
  /-- `s2.Polyline.Decode` over exactly the body bytes. -/
  polylineDec : Bytes → Option (List S2Point)
  /-- Byte coding written by `s2.Polygon.Encode`. -/
  polygonEnc : PolyBody → Bytes
  /-- `s2.Polygon.Decode` over exactly the body bytes. -/
  polygonDec : Bytes → Option PolyBody
  /-- Bytes appended by `ShapeIndex.Build` + `ShapeIndex.Encode` over the
  given shapes. -/
  indexEnc : List S2ShapeM → Bytes
  /-- Whether `EncodedS2ShapeIndex.Init` succeeds on the given bytes. -/
  indexOk : Bytes → Bool
  /-- Cells of the encoded index iterator: `(CellID, NumClipped)` pairs. -/
  iterCells : Bytes → List (CellId × Nat)
  /-- `s2.PointFromLatLng (s2.LatLngFromDegrees lat lng)`. -/
  mkPoint : ℚ → ℚ → S2Point
  /-- `s2.PolygonFromOrientedLoops` over `s2.LoopFromPoints` loops. -/
  mkPolygonFromLoops : List (List S2Point) → PolyBody
  /-- `RegionCoverer.Covering` (exterior, intersecting cells). -/
  covering : RegionM → List CellId
  /-- `RegionCoverer.InteriorCovering` (cells contained in the region). -/
  interiorCovering : RegionM → List CellId
  /-- `RegionTermIndexer.GetIndexTermsForCanonicalCovering`. -/
  canonicalTerms : List CellId → List Bytes
  /-- `RegionTermIndexer.GetQueryTerms` on the cap of the given center
  point and angular radius. -/
  queryTerms : S2Point → ℚ → List Bytes
  /-- `s1.ChordAngleFromAngle`. -/
  chordOfAngle : ℚ → ℚ
  /-- `s2.CellFromCellID(c).Distance(center)` as a chord angle. -/
  cellDistChord : CellId → S2Point → ℚ
  /-- `s2.DistanceFromSegment(center, v0, v1)` as an angle. -/
  segDist : S2Point → S2Point → S2Point → ℚ
  /-- Edge list of an `s2.Polygon` (its loops' edges). -/
  polygonEdges : PolyBody → List (S2Point × S2Point)
  /-- `s2.Polygon.ContainsPoint`. -/
  polyContains : PolyBody → S2Point → Bool
  /-- `s2.Polygon.ContainsCell` (the region interface used by the
  interior coverer). -/
  polyContainsCell : PolyBody → CellId → Bool
  /-- `json.Marshal` of a property map. -/
  jsonMarshal : PropsV → Bytes
  /-- `json.Unmarshal` into a property map; `none` models the ignored
  parse failure that leaves the map nil. -/
  jsonUnmarshal : Bytes → Option PropsV

/-! ## Blob codec (`encodeFullEntry` / `decodeFullEntry`, part_004) -/

/-- Shape type byte written by `encodeFullEntry`. -/
def typeByteOf : S2ShapeM → Nat
  | .pointVector _ => 1
  | .polyline _ => 2
  | .polygon _ => 3

/-- Body bytes of one shape as produced inside `encodeFullEntry`: a
point vector is hand-encoded as `uvarint n` followed by the points, a
polyline or polygon uses the library encoder. -/
def encBody (L : S2Lib) : S2ShapeM → Bytes
  | .pointVector pts => putUvarint pts.length ++ pts.flatMap L.pointEnc
  | .polyline pts => L.polylineEnc pts
  | .polygon b => L.polygonEnc b

/-- One `[TypeByte][LenUvarint][Bytes]` frame of the shape table. -/
def shapeFrame (L : S2Lib) (s : S2ShapeM) : Bytes :=
  typeByteOf s :: (putUvarint (encBody L s).length ++ encBody L s)

/-- Model of `encodeFullEntry`: `[PropsLen][Props][ShapeCount]` then one
frame per shape, then the serialized shape index built over the shapes. -/
def encodeFullEntry (L : S2Lib) (shapes : List S2ShapeM) (props : Bytes) : Bytes :=
  putUvarint props.length ++ props ++ putUvarint shapes.length ++
    shapes.flatMap (shapeFrame L) ++ L.indexEnc shapes

/-- The `(offset, length, type)` record of `shapeInfo`. Offsets are
absolute positions in the blob, as produced by `r.Seek(0, io.SeekCurrent)`. -/
structure ShapeInfo where
  offset : Nat
  length : Nat
  typ : Nat
deriving DecidableEq, Repr

/-- The shape-table scan loop of `decodeFullEntry`. `total` is the blob
size (used to recover the absolute reader position from the remaining
suffix). Reading a type byte from an exhausted reader fails; skipping a
body with `Seek` never fails, even past the end, exactly like
`bytes.Reader.Seek`. -/
def scanShapeInfos (total : Nat) : Bytes → Nat → List ShapeInfo → Option (List ShapeInfo × Bytes)
  | rem, 0, acc => some (acc.reverse, rem)
  | rem, k + 1, acc =>
    match rem with
    | [] => none
    | typ :: rest1 =>
      match readUvarint rest1 with
      | none => none
      | some (len, rest2) =>
        scanShapeInfos total (rest2.drop len) k
          ({ offset := total - rest2.length, length := len, typ := typ } :: acc)

/-- Model of `decodeFullEntry`: parse `[PropsLen][Props]`, scan the shape
table recording `(offset, length, type)` triples, then hand the remaining
bytes to `EncodedS2ShapeIndex.Init` (modelled by `L.indexOk`). Returns
props, the shape table of the lazy factory, and the index bytes. `none`
models every error return. -/
def decodeFullEntry (L : S2Lib) (data : Bytes) : Option (Bytes × List ShapeInfo × Bytes) :=
  match readUvarint data with
  | none => none
  | some (propLen, r1) =>
    if r1.length < propLen then none
    else
      match readUvarint (r1.drop propLen) with
      | none => none
      | some (shapeCount, r3) =>
        match scanShapeInfos data.length r3 shapeCount [] with
        | none => none
        | some (infos, r4) =>
          if L.indexOk r4 then some (r1.take propLen, infos, r4) else none

/-- Point-vector body reader of `LazyShapeFactory.GetShape`: decode
`count` points in sequence from the reader. -/
def decodePoints (L : S2Lib) : Nat → Bytes → Option (List S2Point)
  | 0, _ => some []
  | k + 1, bs =>
    match L.pointDec bs with
    | none => none
    | some (p, rest) => (decodePoints L k rest).map (fun ps => p :: ps)

/-- Model of `LazyShapeFactory.GetShape`: look up the shape record, seek
to its offset and decode according to the type byte. A point vector reads
`uvarint n` then `n` points straight from the reader; a polyline or
polygon decodes from a reader limited to the recorded length. Any
failure, and any type byte outside 1..3, yields `none` (the Go code
returns a nil shape). -/
def getShape (L : S2Lib) (data : Bytes) (infos : List ShapeInfo) (i : Nat) : Option S2ShapeM :=
  match infos[i]? with
  | none => none
  | some info =>
    if info.typ = 1 then
      match readUvarint (data.drop info.offset) with
      | none => none
      | some (count, r1) => (decodePoints L count r1).map (fun ps => .pointVector ps)
    else if info.typ = 2 then
      (L.polylineDec ((data.drop info.offset).take info.length)).map (fun ps => .polyline ps)
    else if info.typ = 3 then
      (L.polygonDec ((data.drop info.offset).take info.length)).map (fun b => .polygon b)
    else none

/-- The shape records that a correct scan of `encodeFullEntry` output
produces, with `pos` the absolute position of the first frame. -/
def mkInfos (L : S2Lib) : List S2ShapeM → Nat → List ShapeInfo
  | [], _ => []
  | s :: rest, pos =>
    let body := encBody L s
    let hlen := 1 + (putUvarint body.length).length
    { offset := pos + hlen, length := body.length, typ := typeByteOf s }
      :: mkInfos L rest (pos + hlen + body.length)

/-- Header of the blob: `[PropsLen][Props][ShapeCount]`. The shape table
starts right after it. -/
def blobHeader (shapes : List S2ShapeM) (props : Bytes) : Bytes :=
  putUvarint props.length ++ props ++ putUvarint shapes.length

/-! ## Store layer (part_002): buckets, WriteBatch, prefix scans -/

/-- A bbolt bucket: an association list of key-value byte strings with
overwrite-on-put. Key order is immaterial to every claim proved here
(candidate ids are collected into Go maps by the reader). -/
abbrev Bucket := List (Bytes × Bytes)

/-- Overwriting put on a bucket. -/
def bput (b : Bucket) (k v : Bytes) : Bucket :=
  (k, v) :: b.filter (fun kv => decide (kv.1 ≠ k))

/-- `Bucket.Get` - first (hence unique) binding of a key. -/
def bfind (b : Bucket) (k : Bytes) : Option Bytes :=
  (b.find? (fun kv => decide (kv.1 = k))).map (fun kv => kv.2)

/-- `Bucket.Put` together with the bbolt error contract: the key must be
non-empty and at most `MaxKeySize = 32768` bytes, the value at most
`MaxValueSize` bytes. -/
def bputE (b : Bucket) (k v : Bytes) : Except Unit Bucket :=
  if k = [] then .error ()
  else if 32768 < k.length then .error ()
  else if 2147483646 < v.length then .error ()
  else .ok (bput b k v)

/-- The `IndexEntry` produced by `PrepareIndexEntry` and consumed by
`WriteBatch`. -/
structure IndexEntryM where
  id : Bytes
  blob : Bytes
  interiorTerms : List Bytes
  exteriorTerms : List Bytes
deriving DecidableEq, Repr

/-- The two logical buckets of the store file. -/
structure Store where
  objects : Bucket
  index : Bucket
deriving DecidableEq, Repr

/-- A freshly created store: both buckets empty. -/
def freshStore : Store := ⟨[], []⟩

/-- Byte string of the `"int:"` key marker. -/
def intPfx : Bytes := [105, 110, 116, 58]

/-- Byte string of the `"ext:"` key marker. -/
def extPfx : Bytes := [101, 120, 116, 58]

/-- Key marker selected by term kind: `true` is interior, `false` is
exterior. -/
def kindPfx (isInt : Bool) : Bytes := if isInt then intPfx else extPfx

/-- Index-bucket key for one term and id: marker, term, NUL, id - as
assembled inside `WriteBatch`. -/
def termKey (isInt : Bool) (term id : Bytes) : Bytes :=
  kindPfx isInt ++ term ++ [0] ++ id

/-- The term-rows loop of `WriteBatch` for one entry and one kind: put
`termKey` with the constant value `"1"` (byte 49) for each term. -/
def putTermsGo (b : Bucket) (isInt : Bool) (id : Bytes) : List Bytes → Except Unit Bucket
  | [] => .ok b
  | t :: rest =>
    match bputE b (termKey isInt t id) [49] with
    | .error e => .error e
    | .ok b2 => putTermsGo b2 isInt id rest

/-- Body of `WriteBatch` for a single entry: put the blob under the id in
`objects`, then one row per interior term and per exterior term in
`index`. -/
def writeEntry (s : Store) (e : IndexEntryM) : Except Unit Store :=
  match bputE s.objects e.id e.blob with
  | .error err => .error err
  | .ok ob =>
    match putTermsGo s.index true e.id e.interiorTerms with
    | .error err => .error err
    | .ok i1 =>
      match putTermsGo i1 false e.id e.exteriorTerms with
      | .error err => .error err
      | .ok i2 => .ok ⟨ob, i2⟩

/-- The transaction body of `WriteBatch`: all entries in order. -/
def writeBatchBody (s : Store) : List IndexEntryM → Except Unit Store
  | [] => .ok s
  | e :: rest =>
    match writeEntry s e with
    | .error err => .error err
    | .ok s2 => writeBatchBody s2 rest

/-- `WriteBatch` as seen through `bolt.DB.Update`: on success the new
store, on any error a rollback to the state before the call (the engine
contract the spec assumes). The second component is the returned error. -/
def WriteBatch (s : Store) (entries : List IndexEntryM) : Store × Option Unit :=
  match writeBatchBody s entries with
  | .ok s2 => (s2, none)
  | .error e => (s, some e)

/-- Fold a sequence of `WriteBatch` calls over a store. A `Put` is a
`WriteBatch` of one entry, so sequences of batches cover both. -/
def runBatches : Store → List (List IndexEntryM) → Store
  | s, [] => s
  | s, b :: rest => runBatches (WriteBatch s b).1 rest

/-- Fold a sequence of `WriteBatch` calls, requiring every batch to
commit; `none` if any batch returns an error. -/
def runBatchesE : Store → List (List IndexEntryM) → Option Store
  | s, [] => some s
  | s, b :: rest =>
    match writeBatchBody s b with
    | .error _ => none
    | .ok s2 => runBatchesE s2 rest

/-- `bytes.HasPrefix key pfx`. -/
def hasPfx : Bytes → Bytes → Bool
  | _, [] => true
  | [], _ :: _ => false
  | a :: ka, b :: pb => a = b && hasPfx ka pb

/-- The cursor prefix scan of `FindClosest`: every key of the bucket that
begins with `pfx`, trimmed of the prefix (`bytes.TrimPrefix`). -/
def scanIds (b : Bucket) (pfx : Bytes) : List Bytes :=
  (b.filter (fun kv => hasPfx kv.1 pfx)).map (fun kv => kv.1.drop pfx.length)

/-! ## Geometry conversion (conversion.go) -/

/-- The GeoJSON geometry variants the converter switches on, with
coordinates as `(x = lng, y = lat)` pairs of degrees. `empty` stands for
a geometry with `IsEmpty() = true`; `collection` for the unsupported
types of the default branch. -/
inductive GeomIn where
  | empty
  | point (p : ℚ × ℚ)
  | lineString (pts : List (ℚ × ℚ))
  | polygon (rings : List (List (ℚ × ℚ)))
  | multiPoint (ps : List (ℚ × ℚ))
  | multiLineString (ls : List (List (ℚ × ℚ)))
  | multiPolygon (polys : List (List (List (ℚ × ℚ)))) 
  | collection
deriving DecidableEq, Repr

/-- A parsed `geom.GeoJSONFeature`: geometry plus property map. -/
structure FeatureM where
  geometry : GeomIn
  properties : PropsV
deriving DecidableEq, Repr

/-- `pointToS2`: latitude is y, longitude is x. -/
def pointToS2 (L : S2Lib) (p : ℚ × ℚ) : S2Point := L.mkPoint p.2 p.1

/-- `lineStringToS2`: every vertex converted in order. -/
def lineStringToS2 (L : S2Lib) (pts : List (ℚ × ℚ)) : List S2Point :=
  pts.map (pointToS2 L)

/-- `lineStringLoopToS2Loop`: drop a duplicated closing vertex (S2 loops
are implicitly closed), then convert the vertices. -/
def loopToS2 (L : S2Lib) (ring : List (ℚ × ℚ)) : List S2Point :=
  let r2 :=
    match ring.head?, ring.getLast? with
    | some first, some last => if first = last then ring.dropLast else ring
    | _, _ => ring
  r2.map (pointToS2 L)

/-- `polygonToS2`: exterior ring first, then the holes, via
`PolygonFromOrientedLoops`. -/
def polygonToS2 (L : S2Lib) (rings : List (List (ℚ × ℚ))) : PolyBody :=
  L.mkPolygonFromLoops (rings.map (loopToS2 L))

/-- `multiPolygonToS2`: the loops of every polygon collected into one
S2 polygon. -/
def multiPolygonToS2 (L : S2Lib) (polys : List (List (List (ℚ × ℚ)))) : PolyBody :=
  L.mkPolygonFromLoops ((polys.flatMap id).map (loopToS2 L))

/-- `geomToS2` (the shapes-and-regions variant used by the store): one
shape list for the blob and one region list for term generation, per the
mapping table of the converter. `none` models the unsupported-geometry
error, raised for empty and collection geometries. -/
def geomToS2 (L : S2Lib) : GeomIn → Option (List S2ShapeM × List RegionM)
  | .point p =>
    let pt := pointToS2 L p
    some ([.pointVector [pt]], [.pointRegion pt])
  | .lineString pts =>
    let ls := lineStringToS2 L pts
    some ([.polyline ls], [.polylineRegion ls])
  | .polygon rings =>
    let b := polygonToS2 L rings
    some ([.polygon b], [.polygonRegion b])
  | .multiPoint ps =>
    let pts := ps.map (pointToS2 L)
    some ([.pointVector pts], pts.map (fun pt => .pointRegion pt))
  | .multiLineString ls =>
    let pls := ls.map (lineStringToS2 L)
    some (pls.map (fun pl => .polyline pl), pls.map (fun pl => .polylineRegion pl))
  | .multiPolygon polys =>
    let b := multiPolygonToS2 L polys
    some ([.polygon b], [.polygonRegion b])
  | .empty => none
  | .collection => none

/-- The region interface consulted by `RegionCoverer.InteriorCovering`:
`ContainsCell` is constantly false for the repository's `PointRegion`
wrapper (conversion.go) and for the library's `s2.Polyline`; a polygon
delegates to the library. -/
def regionContainsCell (L : S2Lib) : RegionM → CellId → Bool
  | .pointRegion _, _ => false
  | .polylineRegion _, _ => false
  | .polygonRegion b, c => L.polyContainsCell b c

/-- Deduplicating union in first-appearance order, standing for the Go
`map[string]struct{}` term sets (only membership is ever used). -/
def dedupTerms (ts : List Bytes) : List Bytes := ts.dedup

/-- Model of `PrepareIndexEntry` (part_002): reject empty geometry,
convert, marshal the properties, encode the blob, then union the
canonical exterior and interior cover terms over all regions. -/
def prepareIndexEntry (L : S2Lib) (id : Bytes) (f : FeatureM) : Option IndexEntryM :=
  if f.geometry = .empty then none
  else
    match geomToS2 L f.geometry with
    | none => none
    | some (shapes, regions) =>
      let propsJSON := L.jsonMarshal f.properties
      let blob := encodeFullEntry L shapes propsJSON
      let intTerms := dedupTerms (regions.flatMap (fun r => L.canonicalTerms (L.interiorCovering r)))
      let extTerms := dedupTerms (regions.flatMap (fun r => L.canonicalTerms (L.covering r)))
      some ⟨id, blob, intTerms, extTerms⟩

/-! ## Result geometry reconstruction (`shapesToGeom`, conversion.go) -/

/-- The `geom.Geometry` values `shapesToGeom` can build, identified by
their underlying S2 data (the lat/lng degree rendering is injective on
it). `emptyG` is the zero value `geom.Geometry`. -/
inductive GeomOut where
  | emptyG
  | pt (p : S2Point)
  | multiPt (ps : List S2Point)
  | line (ps : List S2Point)
  | multiLine (ls : List (List S2Point))
  | poly (b : PolyBody)
deriving DecidableEq, Repr

/-- `shapeToGeom`: a one-point vector renders as a point, a longer one as
a multipoint; a nil shape (from a failed lazy load) renders as the empty
geometry of the default branch. -/
def shapeToGeom : Option S2ShapeM → GeomOut
  | some (.pointVector [p]) => .pt p
  | some (.pointVector ps) => .multiPt ps
  | some (.polyline ps) => .line ps
  | some (.polygon b) => .poly b
  | none => .emptyG

/-- `shapesToGeom`: empty list gives the empty geometry; a single shape
converts directly; several shapes collect the linestrings into a
multilinestring, falling back to the first shape when none are lines. -/
def shapesToGeom (shapes : List (Option S2ShapeM)) : GeomOut :=
  match shapes with
  | [] => .emptyG
  | [s] => shapeToGeom s
  | s :: _ :: _ =>
    let lines := shapes.filterMap (fun os =>
      match os with
      | some (.polyline ps) => some ps
      | _ => none)
    if lines.isEmpty then shapeToGeom s else .multiLine lines

/-! ## Query engine (`FindClosest` / `processCandidate`, part_002) -/

/-- A returned `StoredItem`. `geometry = none` is the zero value
`geom.Geometry{}` left when `withGeometry` is false; `properties = none`
is the nil map left by an ignored `json.Unmarshal` failure. The distance
is in meters. -/
structure StoredItemM where
  id : Bytes
  geometry : Option GeomOut
  properties : Option PropsV
  distance : ℚ
deriving DecidableEq, Repr

/-- Running minimum used by `calculateMinDistance`: fold a new edge
distance into the optional minimum (`none` is the initial `s1.InfAngle`). -/
def minO (a : Option ℚ) (d : ℚ) : Option ℚ :=
  match a with
  | none => some d
  | some x => some (min x d)

/-- Edge list of one shape as iterated by `calculateMinDistance`: a point
vector has one degenerate edge per point, a polyline one edge per
consecutive vertex pair, a polygon the loop edges of the library. -/
def shapeEdges (L : S2Lib) : S2ShapeM → List (S2Point × S2Point)
  | .pointVector pts => pts.map (fun p => (p, p))
  | .polyline pts => pts.zip pts.tail
  | .polygon b => L.polygonEdges b

/-- Model of `calculateMinDistance`: minimum of `DistanceFromSegment`
over every edge of every shape; `none` when there is no edge (the Go
value stays `s1.InfAngle`, which fails the radius test). A nil shape
contributes no edges. -/
def calcMinDist (L : S2Lib) (shapes : List (Option S2ShapeM)) (center : S2Point) : Option ℚ :=
  shapes.foldl
    (fun acc os =>
      match os with
      | none => acc
      | some s => (shapeEdges L s).foldl (fun a e => minO a (L.segDist e.1 e.2 center)) acc)
    none

/-- The fast cell cull of `processCandidate`: some cell of the encoded
index is within the chord-angle limit and carries at least one clipped
shape. -/
def cellCull (L : S2Lib) (idxBytes : Bytes) (center : S2Point) (limit : ℚ) : Bool :=
  (L.iterCells idxBytes).any (fun c => !(limit < L.cellDistChord c.1 center) && 0 < c.2)

/-- The distance part of `processCandidate`: for an interior-set
candidate whose first shape is a polygon containing the query point the
distance is zero, otherwise the full edge minimum. -/
def candidateDist (L : S2Lib) (shapes : List (Option S2ShapeM)) (center : S2Point)
    (isInteriorMatch : Bool) : Option ℚ :=
  if isInteriorMatch ∧ shapes ≠ [] then
    match shapes.head? with
    | some (some (.polygon b)) =>
      if L.polyContains b center then some 0 else calcMinDist L shapes center
    | _ => calcMinDist L shapes center
  else calcMinDist L shapes center

/-- Model of `processCandidate`: fetch the blob, decode it, cull by cell
bounds, load every shape from the factory, compute the distance and emit
the item when it is within the angular radius. `none` covers both the
error returns and the nil-item returns, which the caller treats alike. -/
def processCandidate (L : S2Lib) (bObj : Bucket) (id : Bytes) (center : S2Point)
    (angleRadius : ℚ) (withGeometry isInteriorMatch : Bool) : Option StoredItemM :=
  match bfind bObj id with
  | none => none
  | some data =>
    match decodeFullEntry L data with
    | none => none
    | some (propsJSON, infos, idxBytes) =>
      if cellCull L idxBytes center (L.chordOfAngle angleRadius) then
        let shapes := (List.range infos.length).map (getShape L data infos)
        match candidateDist L shapes center isInteriorMatch with
        | none => none
        | some d =>
          if d ≤ angleRadius then
            some
              { id := id
                geometry := if withGeometry then some (shapesToGeom shapes) else none
                properties := L.jsonUnmarshal propsJSON
                distance := d * 6371000 }
          else none
      else none

/-- First gather pass of `FindClosest`: ids found under `"int:"` rows of
any query term. -/
def gatherInt (st : Store) (qterms : List Bytes) : List Bytes :=
  (qterms.flatMap (fun t => scanIds st.index (intPfx ++ t ++ [0]))).dedup

/-- Second gather pass: ids found under `"ext:"` rows of any query term
that are not already interior candidates. -/
def gatherExt (st : Store) (qterms : List Bytes) (intC : List Bytes) : List Bytes :=
  ((qterms.flatMap (fun t => scanIds st.index (extPfx ++ t ++ [0]))).dedup).filter
    (fun id => decide (id ∉ intC))

/-- Comparison used to sort results (ascending `Distance`). -/
def itemLE (a b : StoredItemM) : Prop := a.distance ≤ b.distance

instance : DecidableRel itemLE := fun a b => inferInstanceAs (Decidable (a.distance ≤ b.distance))

instance : IsTotal StoredItemM itemLE := ⟨fun a b => le_total a.distance b.distance⟩

instance : IsTrans StoredItemM itemLE := ⟨fun _ _ _ h1 h2 => le_trans h1 h2⟩

/-- Model of `FindClosest`: build the cap's query terms, gather interior
then exterior candidates by prefix scan, refine each candidate, and sort
ascending by distance. (Go iterates the candidate sets in arbitrary map
order and sorts with an unstable sort; the model fixes scan order and
insertion sort, which agrees on everything the sorted output
guarantees.) -/
def findClosest (L : S2Lib) (st : Store) (lat lng radiusMeters : ℚ)
    (withGeometry : Bool) : List StoredItemM :=
  let center := L.mkPoint lat lng
  let angleRadius := radiusMeters / 6371000
  let qterms := L.queryTerms center angleRadius
  let intC := gatherInt st qterms
  let extC := gatherExt st qterms intC
  let results :=
    intC.filterMap (fun id => processCandidate L st.objects id center angleRadius withGeometry true)
      ++ extC.filterMap (fun id => processCandidate L st.objects id center angleRadius withGeometry false)
  List.insertionSort itemLE results

/-! ## Toy library instances used by witnesses and counterexamples

`toyLib` satisfies every codec contract with unary byte codings; the
counterexample instances override the geometric oracles. -/

/-- Unary point coding: `p` ones then a zero. Injective and
prefix-decodable for every atom, standing in for the 24-byte float64
coding of a real point. -/
def toyPointEnc (p : S2Point) : Bytes := List.replicate p 1 ++ [0]

/-- Inverse of `toyPointEnc`, returning the remaining stream. -/
def toyPointDec (bs : Bytes) : Option (S2Point × Bytes) :=
  let k := (bs.takeWhile (fun b => decide (b = 1))).length
  match (bs.drop k).head? with
  | some 0 => some (k, bs.drop (k + 1))
  | _ => none

/-- Unary-framed list coding used for the toy polyline body. -/
def toyPolylineEnc (pts : List S2Point) : Bytes :=
  List.replicate pts.length 1 ++ [0] ++ pts.flatMap toyPointEnc

/-- Read `k` unary-coded points. -/
def toyReadPts : Nat → Bytes → Option (List S2Point × Bytes)
  | 0, bs => some ([], bs)
  | k + 1, bs =>
    match toyPointDec bs with
    | none => none
    | some (p, r) => (toyReadPts k r).map (fun pr => (p :: pr.1, pr.2))

/-- Inverse of `toyPolylineEnc`. -/
def toyPolylineDec (bs : Bytes) : Option (List S2Point) :=
  let k := (bs.takeWhile (fun b => decide (b = 1))).length
  match (bs.drop k).head? with
  | some 0 => (toyReadPts k (bs.drop (k + 1))).map (fun pr => pr.1)
  | _ => none

/-- Toy instance of the external library: unary codecs, a one-byte
serialized index, and trivial geometry. -/
def toyLib : S2Lib where
  pointEnc := toyPointEnc
  pointDec := toyPointDec
  polylineEnc := toyPolylineEnc
  polylineDec := toyPolylineDec
  polygonEnc b := List.replicate b 1 ++ [0]
  polygonDec bs := (toyPointDec bs).map (fun pr => pr.1)
  indexEnc _ := [0]
  indexOk bs := decide (bs = [0])
  iterCells _ := [(1, 1)]
  mkPoint _ _ := 0
  mkPolygonFromLoops _ := 5
  covering _ := [11]
  interiorCovering r :=
    match r with
    | .polygonRegion _ => [12]
    | _ => []
  canonicalTerms cov := cov.map (fun c => [c])
  queryTerms _ _ := [[11], [12]]
  chordOfAngle _ := 1
  cellDistChord _ _ := 0
  segDist _ _ _ := 2
  polygonEdges _ := [(3, 4)]
  polyContains _ _ := true
  polyContainsCell _ _ := true
  jsonMarshal _ := []
  jsonUnmarshal _ := some 0

/-- Library instance of the C1 counterexample: a huge polygon containing
the query point, whose encoded shape-index cells (hugging the far-away
boundary) all lie beyond the chord-angle limit, and whose interior-cover
terms do not meet the query terms. -/
def cexLibFar : S2Lib :=
  { toyLib with
    queryTerms := fun _ _ => [[11]]
    chordOfAngle := fun _ => 1
    cellDistChord := fun _ _ => 9 }

/-- Library instance of the C2 counterexample: a polygon containing the
query point that is reached only through exterior terms; its boundary
edges are 2 radians away, within the 3-radian query angle. -/
def cexLibNear : S2Lib :=
  { toyLib with
    queryTerms := fun _ _ => [[11]]
    segDist := fun _ _ _ => 2 }

/-- Strip of the geometry field (the only field `withGeometry` affects). -/
def stripGeom (it : StoredItemM) : StoredItemM :=
  { it with geometry := none }

/-- The polygon feature driving both query counterexamples: a quad ring
with a duplicated closing vertex. -/
def cexFeature : FeatureM :=
  ⟨.polygon [[(0, 0), (1, 0), (1, 1), (0, 0)]], 0⟩

/-- The index entry `prepareIndexEntry` produces for `cexFeature` under
the toy codecs: polygon atom 5, one interior term `[12]`, one exterior
term `[11]`. -/
def cexEntry : IndexEntryM :=
  ⟨[102], [0, 1, 3, 6, 1, 1, 1, 1, 1, 0, 0], [[12]], [[11]]⟩

/-- Store holding exactly `cexEntry`, installed through `WriteBatch`. -/
def cexStore : Store := (WriteBatch freshStore [cexEntry]).1

/-- The 0- and 1-dimensional geometry variants (points and polylines). -/
def pointLike : GeomIn → Bool
  | .point _ => true
  | .lineString _ => true
  | .multiPoint _ => true
  | .multiLineString _ => true
  | _ => false

/-- The 2-dimensional geometry variants (polygons). -/
def polygonal : GeomIn → Bool
  | .polygon _ => true
  | .multiPolygon _ => true
  | _ => false

/-! ## Varint round-trip -/

theorem putUvarintGo_congr :
    ∀ (fuel1 fuel2 n : Nat), n ≤ fuel1 → n ≤ fuel2 →
      putUvarintGo fuel1 n = putUvarintGo fuel2 n := by
  intro fuel1
  induction fuel1 with
  | zero =>
    intro fuel2 n h1 h2
    have hn : n = 0 := Nat.le_zero.mp h1
    subst hn
    cases fuel2 with
    | zero => rfl
    | succ f2 => simp [putUvarintGo]
  | succ f1 ih =>
    intro fuel2 n h1 h2
    cases fuel2 with
    | zero =>
      have hn : n = 0 := Nat.le_zero.mp h2
      subst hn
      simp [putUvarintGo]
    | succ f2 =>
      simp only [putUvarintGo]
      by_cases h : n < 128
      · rw [if_pos h, if_pos h]
      · rw [if_neg h, if_neg h]
        have hdiv : n / 128 < n := Nat.div_lt_self (by omega) (by norm_num)
        rw [ih f2 (n / 128) (by omega) (by omega)]

theorem putUvarint_small {n : Nat} (h : n < 128) : putUvarint n = [n] := by
  rw [putUvarint]
  cases n with
  | zero => rfl
  | succ m => simp [putUvarintGo, h]

theorem putUvarint_large {n : Nat} (h : ¬ n < 128) :
    putUvarint n = (n % 128 + 128) :: putUvarint (n / 128) := by
  rw [putUvarint]
  cases hn : n with
  | zero => omega
  | succ m =>
    simp only [putUvarintGo, if_neg (hn ▸ h)]
    rw [putUvarint]
    rw [putUvarintGo_congr m ((m + 1) / 128) ((m + 1) / 128)
      (by omega) (by omega)]

/-- Round-trip of the varint codec, generalized over the loop state. -/
theorem readUvarintLoop_putUvarint :
    ∀ (n : Nat), ∀ (i x : Nat) (r : Bytes), i ≤ 9 → n < 2 ^ (7 * (10 - i) - 6) →
      readUvarintLoop (putUvarint n ++ r) x i = some (x + n * 128 ^ i, r) := by
  intro n
  induction n using Nat.strong_induction_on with
  | _ n ih =>
    intro i x r hi hn
    by_cases h : n < 128
    · rw [putUvarint_small h]
      have hi10 : ¬ 10 ≤ i := by omega
      simp only [List.cons_append, List.nil_append, readUvarintLoop, hi10, if_false, h, if_true]
      by_cases h9 : i = 9
      · subst h9
        have hn2 : n < 2 := by
          have he : 7 * (10 - 9) - 6 = 1 := by norm_num
          rw [he] at hn
          simpa using hn
        have hnot : ¬ (9 = 9 ∧ 1 < n) := by omega
        rw [if_neg hnot]
        simp
      · have hnot : ¬ (i = 9 ∧ 1 < n) := fun hc => h9 hc.1
        rw [if_neg hnot]
        simp
    · rw [putUvarint_large h]
      have hi10 : ¬ 10 ≤ i := by omega
      have hbig : ¬ n % 128 + 128 < 128 := by omega
      simp only [List.cons_append, readUvarintLoop, hi10, if_false, hbig]
      have hi9 : i ≤ 8 := by
        by_contra hc
        have : i = 9 := by omega
        subst this
        have he : 7 * (10 - 9) - 6 = 1 := by norm_num
        rw [he] at hn
        omega
      have hbound : n / 128 < 2 ^ (7 * (10 - (i + 1)) - 6) := by
        have h2 : 7 * (10 - i) - 6 = (7 * (10 - (i + 1)) - 6) + 7 := by omega
        rw [h2, pow_add] at hn
        have h27 : (2 : Nat) ^ 7 = 128 := by norm_num
        rw [h27, Nat.mul_comm] at hn
        exact Nat.div_lt_of_lt_mul hn
      have hrec := ih (n / 128) (Nat.div_lt_self (by omega) (by norm_num)) (i + 1)
        (x + (n % 128 + 128) % 128 * 128 ^ i) r (by omega) hbound
      show readUvarintLoop (putUvarint (n / 128) ++ r) (x + (n % 128 + 128) % 128 * 128 ^ i) (i + 1)
        = some (x + n * 128 ^ i, r)
      rw [hrec]
      have hmm : (n % 128 + 128) % 128 = n % 128 := by omega
      rw [hmm]
      have hval : x + n % 128 * 128 ^ i + n / 128 * 128 ^ (i + 1) = x + n * 128 ^ i := by
        have hsplit : n = n % 128 + 128 * (n / 128) := (Nat.mod_add_div n 128).symm
        calc x + n % 128 * 128 ^ i + n / 128 * 128 ^ (i + 1)
            = x + (n % 128 + 128 * (n / 128)) * 128 ^ i := by ring
          _ = x + n * 128 ^ i := by rw [← hsplit]
      rw [hval]

/-- Round-trip of the varint codec for any value that fits in 64 bits. -/
theorem readUvarint_putUvarint {n : Nat} (hn : n < 2 ^ 64) (r : Bytes) :
    readUvarint (putUvarint n ++ r) = some (n, r) := by
  have := readUvarintLoop_putUvarint n 0 0 r (by norm_num) (by simpa using hn)
  simpa [readUvarint] using this

/-! ## Toy codec round-trips -/

theorem takeWhile_replicate_one (n : Nat) (r : Bytes) :
    (List.replicate n 1 ++ 0 :: r).takeWhile (fun b => decide (b = 1)) = List.replicate n 1 := by
  induction n with
  | zero => simp [List.takeWhile]
  | succ k ih => simp [List.replicate_succ, List.takeWhile, ih]

theorem drop_replicate_cons (n : Nat) (x : Nat) (r : Bytes) :
    (List.replicate n 1 ++ x :: r).drop n = x :: r := by
  have h := List.drop_left (List.replicate n 1) (x :: r)
  rw [List.length_replicate] at h
  exact h

theorem toyPointDec_enc (p : S2Point) (r : Bytes) :
    toyPointDec (toyPointEnc p ++ r) = some (p, r) := by
  have hb : toyPointEnc p ++ r = List.replicate p 1 ++ 0 :: r := by
    simp [toyPointEnc]
  rw [hb]
  have htw := takeWhile_replicate_one p r
  have hdrop := drop_replicate_cons p 0 r
  have hdrop1 : (List.replicate p 1 ++ 0 :: r).drop (p + 1) = r := by
    have h2 : (List.replicate p 1 ++ 0 :: r).drop (p + 1)
        = ((List.replicate p 1 ++ 0 :: r).drop p).drop 1 := by
      rw [List.drop_drop]
    rw [h2, hdrop]
    simp
  simp only [toyPointDec, htw, List.length_replicate, hdrop, hdrop1, List.head?]

theorem toyReadPts_enc (pts : List S2Point) (r : Bytes) :
    toyReadPts pts.length (pts.flatMap toyPointEnc ++ r) = some (pts, r) := by
  induction pts generalizing r with
  | nil => simp [toyReadPts]
  | cons p rest ih =>
    have hsplit : (p :: rest).flatMap toyPointEnc ++ r
        = toyPointEnc p ++ (rest.flatMap toyPointEnc ++ r) := by
      simp [List.flatMap_cons, List.append_assoc]
    rw [List.length_cons, hsplit]
    simp only [toyReadPts, toyPointDec_enc, ih]
    rfl

theorem toyPolylineDec_enc (pts : List S2Point) :
    toyPolylineDec (toyPolylineEnc pts) = some pts := by
  have hb : toyPolylineEnc pts
      = List.replicate pts.length 1 ++ 0 :: pts.flatMap toyPointEnc := by
    simp [toyPolylineEnc]
  rw [hb]
  have htw := takeWhile_replicate_one pts.length (pts.flatMap toyPointEnc)
  have hdrop := drop_replicate_cons pts.length 0 (pts.flatMap toyPointEnc)
  have hdrop1 : (List.replicate pts.length 1 ++ 0 :: pts.flatMap toyPointEnc).drop (pts.length + 1)
      = pts.flatMap toyPointEnc := by
    have h2 : (List.replicate pts.length 1 ++ 0 :: pts.flatMap toyPointEnc).drop (pts.length + 1)
        = ((List.replicate pts.length 1 ++ 0 :: pts.flatMap toyPointEnc).drop pts.length).drop 1 := by
      rw [List.drop_drop]
    rw [h2, hdrop]
    simp
  have hread := toyReadPts_enc pts []
  rw [List.append_nil] at hread
  simp only [toyPolylineDec, htw, List.length_replicate, hdrop, hdrop1, List.head?, hread]
  rfl

/-! ## Bucket lemmas -/

theorem bfind_bput_self (b : Bucket) (k v : Bytes) : bfind (bput b k v) k = some v := by
  simp [bfind, bput, List.find?_cons]

theorem find?_and_ne (b : Bucket) (k k2 : Bytes) (h : k2 ≠ k) :
    List.find? (fun a => !decide (a.1 = k) && decide (a.1 = k2)) b
      = List.find? (fun kv => decide (kv.1 = k2)) b := by
  induction b with
  | nil => rfl
  | cons kv rest ih =>
    by_cases hk2 : kv.1 = k2
    · have hkk : ¬ kv.1 = k := by
        rw [hk2]
        exact h
      simp [List.find?_cons, hk2, hkk, h]
    · simp [List.find?_cons, hk2, ih]

theorem bfind_bput_ne (b : Bucket) (k v k2 : Bytes) (h : k2 ≠ k) :
    bfind (bput b k v) k2 = bfind b k2 := by
  have hk : ¬ ((k : Bytes) = k2) := fun hc => h hc.symm
  simp [bfind, bput, List.find?_cons, hk, find?_and_ne b k k2 h]

theorem mem_bput (b : Bucket) (k v : Bytes) (kv : Bytes × Bytes) :
    kv ∈ bput b k v ↔ kv = (k, v) ∨ (kv ∈ b ∧ kv.1 ≠ k) := by
  simp [bput, List.mem_filter, and_comm]

theorem bfind_mem {b : Bucket} {k v : Bytes} (h : bfind b k = some v) : (k, v) ∈ b := by
  simp only [bfind] at h
  cases hf : List.find? (fun kv => decide (kv.1 = k)) b with
  | none => rw [hf] at h; cases h
  | some kv =>
    rw [hf] at h
    have hmem := List.mem_of_find?_eq_some hf
    have hkey := List.find?_some hf
    cases kv with
    | mk a c =>
      simp at hkey h
      subst hkey
      subst h
      exact hmem

theorem bputE_ok {b : Bucket} {k v : Bytes} {b2 : Bucket} (h : bputE b k v = .ok b2) :
    b2 = bput b k v ∧ k ≠ [] := by
  simp only [bputE] at h
  by_cases h1 : k = []
  · simp [h1] at h
  · rw [if_neg h1] at h
    by_cases h2 : 32768 < k.length
    · simp [h2] at h
    · rw [if_neg h2] at h
      by_cases h3 : 2147483646 < v.length
      · simp [h3] at h
      · rw [if_neg h3] at h
        cases h
        exact ⟨rfl, h1⟩

/-! ## putTermsGo and writeEntry lemmas -/

theorem putTermsGo_pres {b b2 : Bucket} {isInt : Bool} {id : Bytes} {ts : List Bytes}
    (h : putTermsGo b isInt id ts = .ok b2) {k : Bytes} (hk : bfind b k = some [49]) :
    bfind b2 k = some [49] := by
  induction ts generalizing b with
  | nil =>
    simp only [putTermsGo] at h
    cases h
    exact hk
  | cons t rest ih =>
    simp only [putTermsGo] at h
    cases hput : bputE b (termKey isInt t id) [49] with
    | error e => rw [hput] at h; cases h
    | ok b1 =>
      rw [hput] at h
      rcases bputE_ok hput with ⟨hb1, _⟩
      subst hb1
      apply ih h
      by_cases hkk : k = termKey isInt t id
      · subst hkk
        exact bfind_bput_self _ _ _
      · rw [bfind_bput_ne _ _ _ _ hkk]
        exact hk

theorem putTermsGo_sets {b b2 : Bucket} {isInt : Bool} {id : Bytes} {ts : List Bytes}
    (h : putTermsGo b isInt id ts = .ok b2) :
    ∀ t ∈ ts, bfind b2 (termKey isInt t id) = some [49] := by
  induction ts generalizing b with
  | nil => intro t ht; cases ht
  | cons t0 rest ih =>
    intro t ht
    simp only [putTermsGo] at h
    cases hput : bputE b (termKey isInt t0 id) [49] with
    | error e => rw [hput] at h; cases h
    | ok b1 =>
      rw [hput] at h
      rcases bputE_ok hput with ⟨hb1, _⟩
      subst hb1
      rcases List.mem_cons.mp ht with h0 | hrest
      · subst h0
        exact putTermsGo_pres h (bfind_bput_self _ _ _)
      · exact ih h t hrest

theorem putTermsGo_mem {b b2 : Bucket} {isInt : Bool} {id : Bytes} {ts : List Bytes}
    (h : putTermsGo b isInt id ts = .ok b2) {kv : Bytes × Bytes} (hkv : kv ∈ b2) :
    kv ∈ b ∨ ∃ t ∈ ts, kv = (termKey isInt t id, [49]) := by
  induction ts generalizing b with
  | nil =>
    simp only [putTermsGo] at h
    cases h
    exact Or.inl hkv
  | cons t0 rest ih =>
    simp only [putTermsGo] at h
    cases hput : bputE b (termKey isInt t0 id) [49] with
    | error e => rw [hput] at h; cases h
    | ok b1 =>
      rw [hput] at h
      rcases bputE_ok hput with ⟨hb1, _⟩
      subst hb1
      rcases ih h with hin | ⟨t, htmem, hteq⟩
      · rcases (mem_bput _ _ _ _).mp hin with heq | ⟨hin2, _⟩
        · exact Or.inr ⟨t0, List.mem_cons_self _ _, heq⟩
        · exact Or.inl hin2
      · exact Or.inr ⟨t, List.mem_cons_of_mem _ htmem, hteq⟩

theorem writeEntry_ok {s s2 : Store} {e : IndexEntryM} (h : writeEntry s e = .ok s2) :
    s2.objects = bput s.objects e.id e.blob ∧ e.id ≠ [] ∧
      ∃ i1, putTermsGo s.index true e.id e.interiorTerms = .ok i1 ∧
        putTermsGo i1 false e.id e.exteriorTerms = .ok s2.index := by
  simp only [writeEntry] at h
  split at h
  · cases h
  · rename_i ob hob
    split at h
    · cases h
    · rename_i i1 hint
      split at h
      · cases h
      · rename_i i2 hext
        cases h
        rcases bputE_ok hob with ⟨hb, hne⟩
        exact ⟨hb, hne, i1, hint, hext⟩

theorem writeEntry_index_pres {s s2 : Store} {e : IndexEntryM} (h : writeEntry s e = .ok s2)
    {k : Bytes} (hk : bfind s.index k = some [49]) : bfind s2.index k = some [49] := by
  rcases writeEntry_ok h with ⟨_, _, i1, hint, hext⟩
  exact putTermsGo_pres hext (putTermsGo_pres hint hk)

theorem writeEntry_index_sets {s s2 : Store} {e : IndexEntryM} (h : writeEntry s e = .ok s2) :
    (∀ t ∈ e.interiorTerms, bfind s2.index (termKey true t e.id) = some [49]) ∧
      (∀ t ∈ e.exteriorTerms, bfind s2.index (termKey false t e.id) = some [49]) := by
  rcases writeEntry_ok h with ⟨_, _, i1, hint, hext⟩
  constructor
  · intro t ht
    exact putTermsGo_pres hext (putTermsGo_sets hint t ht)
  · intro t ht
    exact putTermsGo_sets hext t ht

theorem writeEntry_index_mem {s s2 : Store} {e : IndexEntryM} (h : writeEntry s e = .ok s2)
    {kv : Bytes × Bytes} (hkv : kv ∈ s2.index) :
    kv ∈ s.index ∨
      ((∃ t ∈ e.interiorTerms, kv = (termKey true t e.id, [49])) ∨
        (∃ t ∈ e.exteriorTerms, kv = (termKey false t e.id, [49]))) ∧ e.id ≠ [] := by
  rcases writeEntry_ok h with ⟨_, hne, i1, hint, hext⟩
  rcases putTermsGo_mem hext hkv with h1 | h1
  · rcases putTermsGo_mem hint h1 with h2 | h2
    · exact Or.inl h2
    · exact Or.inr ⟨Or.inl h2, hne⟩
  · exact Or.inr ⟨Or.inr h1, hne⟩

theorem writeEntry_objects_pres {s s2 : Store} {e : IndexEntryM} (h : writeEntry s e = .ok s2)
    {k : Bytes} (hk : k ≠ e.id) : bfind s2.objects k = bfind s.objects k := by
  rcases writeEntry_ok h with ⟨hob, _, _, _, _⟩
  rw [hob]
  exact bfind_bput_ne _ _ _ _ hk

theorem writeEntry_objects_self {s s2 : Store} {e : IndexEntryM} (h : writeEntry s e = .ok s2) :
    bfind s2.objects e.id = some e.blob := by
  rcases writeEntry_ok h with ⟨hob, _, _, _, _⟩
  rw [hob]
  exact bfind_bput_self _ _ _

theorem writeBatchBody_index_pres {entries : List IndexEntryM} :
    ∀ {s s2 : Store}, writeBatchBody s entries = .ok s2 →
      ∀ {k : Bytes}, bfind s.index k = some [49] → bfind s2.index k = some [49] := by
  induction entries with
  | nil =>
    intro s s2 h k hk
    simp only [writeBatchBody] at h
    cases h
    exact hk
  | cons e rest ih =>
    intro s s2 h k hk
    simp only [writeBatchBody] at h
    cases he : writeEntry s e with
    | error err => rw [he] at h; cases h
    | ok s1 =>
      rw [he] at h
      exact ih h (writeEntry_index_pres he hk)

theorem writeBatchBody_index_mem {entries : List IndexEntryM} :
    ∀ {s s2 : Store}, writeBatchBody s entries = .ok s2 →
      ∀ {kv : Bytes × Bytes}, kv ∈ s2.index →
        kv ∈ s.index ∨ ∃ e ∈ entries,
          ((∃ t ∈ e.interiorTerms, kv = (termKey true t e.id, [49])) ∨
            (∃ t ∈ e.exteriorTerms, kv = (termKey false t e.id, [49]))) ∧ e.id ≠ [] := by
  induction entries with
  | nil =>
    intro s s2 h kv hkv
    simp only [writeBatchBody] at h
    cases h
    exact Or.inl hkv
  | cons e rest ih =>
    intro s s2 h kv hkv
    simp only [writeBatchBody] at h
    cases he : writeEntry s e with
    | error err => rw [he] at h; cases h
    | ok s1 =>
      rw [he] at h
      rcases ih h hkv with h1 | ⟨e2, he2, hprop⟩
      · rcases writeEntry_index_mem he h1 with h2 | h2
        · exact Or.inl h2
        · exact Or.inr ⟨e, List.mem_cons_self _ _, h2⟩
      · exact Or.inr ⟨e2, List.mem_cons_of_mem _ he2, hprop⟩

theorem writeBatchBody_index_sets {entries : List IndexEntryM} :
    ∀ {s s2 : Store}, writeBatchBody s entries = .ok s2 →
      ∀ e ∈ entries,
        (∀ t ∈ e.interiorTerms, bfind s2.index (termKey true t e.id) = some [49]) ∧
          (∀ t ∈ e.exteriorTerms, bfind s2.index (termKey false t e.id) = some [49]) := by
  induction entries with
  | nil =>
    intro s s2 h e he
    cases he
  | cons e0 rest ih =>
    intro s s2 h e he
    simp only [writeBatchBody] at h
    cases he0 : writeEntry s e0 with
    | error err => rw [he0] at h; cases h
    | ok s1 =>
      rw [he0] at h
      rcases List.mem_cons.mp he with heq | hmem
      · subst heq
        rcases writeEntry_index_sets he0 with ⟨hint, hext⟩
        constructor
        · intro t ht
          exact writeBatchBody_index_pres h (hint t ht)
        · intro t ht
          exact writeBatchBody_index_pres h (hext t ht)
      · exact ih h e hmem

theorem writeBatchBody_objects_pres {entries : List IndexEntryM} :
    ∀ {s s2 : Store}, writeBatchBody s entries = .ok s2 →
      ∀ {k v : Bytes}, (∀ e ∈ entries, k ≠ e.id) →
        bfind s.objects k = some v → bfind s2.objects k = some v := by
  induction entries with
  | nil =>
    intro s s2 h k v _ hk
    simp only [writeBatchBody] at h
    cases h
    exact hk
  | cons e0 rest ih =>
    intro s s2 h k v hne hk
    simp only [writeBatchBody] at h
    cases he0 : writeEntry s e0 with
    | error err => rw [he0] at h; cases h
    | ok s1 =>
      rw [he0] at h
      have hk1 : bfind s1.objects k = some v := by
        rw [writeEntry_objects_pres he0 (hne e0 (List.mem_cons_self _ _))]
        exact hk
      exact ih h (fun e2 he2 => hne e2 (List.mem_cons_of_mem _ he2)) hk1

theorem writeBatchBody_objects {entries : List IndexEntryM} :
    ∀ {s s2 : Store}, writeBatchBody s entries = .ok s2 →
      (List.Pairwise (fun a b => a.id ≠ b.id) entries) →
      ∀ e ∈ entries, bfind s2.objects e.id = some e.blob := by
  induction entries with
  | nil =>
    intro s s2 h _ e he
    cases he
  | cons e0 rest ih =>
    intro s s2 h hpw e he
    simp only [writeBatchBody] at h
    cases he0 : writeEntry s e0 with
    | error err => rw [he0] at h; cases h
    | ok s1 =>
      rw [he0] at h
      rcases List.pairwise_cons.mp hpw with ⟨hd, hpw2⟩
      rcases List.mem_cons.mp he with heq | hmem
      · subst heq
        exact writeBatchBody_objects_pres h (fun e2 he2 => hd e2 he2) (writeEntry_objects_self he0)
      · exact ih h hpw2 e hmem

/-! ## Prefix-scan lemmas -/

theorem hasPfx_iff (k p : Bytes) : hasPfx k p = true ↔ ∃ r, k = p ++ r := by
  induction p generalizing k with
  | nil =>
    simp only [hasPfx]
    constructor
    · intro _
      exact ⟨k, rfl⟩
    · intro _
      trivial
  | cons b pb ih =>
    cases k with
    | nil =>
      simp only [hasPfx]
      constructor
      · intro hc
        cases hc
      · intro hc
        rcases hc with ⟨r, hr⟩
        cases hr
    | cons a ka =>
      simp only [hasPfx, Bool.and_eq_true, decide_eq_true_eq, ih]
      constructor
      · intro hc
        rcases hc with ⟨hab, r, hr⟩
        exact ⟨r, by rw [hab, hr]; rfl⟩
      · intro hc
        rcases hc with ⟨r, hr⟩
        rw [List.cons_append] at hr
        cases hr
        exact ⟨rfl, r, rfl⟩

theorem hasPfx_append (p r : Bytes) : hasPfx (p ++ r) p = true :=
  (hasPfx_iff _ _).mpr ⟨r, rfl⟩

theorem mem_scanIds (b : Bucket) (pfx id : Bytes) :
    id ∈ scanIds b pfx ↔ ∃ kv ∈ b, hasPfx kv.1 pfx = true ∧ kv.1.drop pfx.length = id := by
  simp only [scanIds, List.mem_map, List.mem_filter]
  constructor
  · intro hc
    rcases hc with ⟨kv, ⟨hmem, hp⟩, hd⟩
    exact ⟨kv, hmem, hp, hd⟩
  · intro hc
    rcases hc with ⟨kv, hmem, hp, hd⟩
    exact ⟨kv, ⟨hmem, hp⟩, hd⟩

/-! ## NUL-separated key disambiguation -/

theorem sep_eq {t t2 rest rest2 : Bytes} (ht : 0 ∉ t) (ht2 : 0 ∉ t2)
    (h : t ++ 0 :: rest = t2 ++ 0 :: rest2) : t = t2 ∧ rest = rest2 := by
  induction t generalizing t2 with
  | nil =>
    cases t2 with
    | nil =>
      simp at h
      exact ⟨rfl, h⟩
    | cons b tb =>
      rw [List.nil_append, List.cons_append] at h
      injection h with h1 h2
      have hb : (0 : Nat) ∈ b :: tb := by
        rw [← h1]
        exact List.mem_cons_self _ _
      exact absurd hb ht2
  | cons a ta ih =>
    cases t2 with
    | nil =>
      rw [List.nil_append, List.cons_append] at h
      injection h with h1 h2
      have ha : (0 : Nat) ∈ a :: ta := by
        rw [h1]
        exact List.mem_cons_self _ _
      exact absurd ha ht
    | cons b tb =>
      rw [List.cons_append, List.cons_append] at h
      injection h with h1 h2
      have ht' : (0 : Nat) ∉ ta := fun hc => ht (List.mem_cons_of_mem _ hc)
      have ht2' : (0 : Nat) ∉ tb := fun hc => ht2 (List.mem_cons_of_mem _ hc)
      rcases ih ht' ht2' h2 with ⟨he1, he2⟩
      constructor
      · rw [h1, he1]
      · exact he2

theorem termKey_assoc (isInt : Bool) (t id : Bytes) :
    termKey isInt t id = (kindPfx isInt ++ t ++ [0]) ++ id := by
  simp [termKey, List.append_assoc]

theorem termKey_flat (isInt : Bool) (t id : Bytes) :
    termKey isInt t id = kindPfx isInt ++ (t ++ 0 :: id) := by
  simp [termKey, List.append_assoc]

theorem hasPfx_termKey_iff {i1 i2 : Bool} {t t2 id2 : Bytes} (ht : 0 ∉ t) (ht2 : 0 ∉ t2) :
    hasPfx (termKey i2 t2 id2) (kindPfx i1 ++ t ++ [0]) = true ↔ i1 = i2 ∧ t = t2 := by
  constructor
  · intro h
    rcases (hasPfx_iff _ _).mp h with ⟨r, hr⟩
    rw [termKey_flat] at hr
    have hflat : kindPfx i2 ++ (t2 ++ 0 :: id2) = kindPfx i1 ++ (t ++ 0 :: r) := by
      rw [hr]
      simp [List.append_assoc]
    cases i1 with
    | true =>
      cases i2 with
      | true =>
        have hc : t2 ++ 0 :: id2 = t ++ 0 :: r := by
          simpa [kindPfx, intPfx, List.cons_append] using hflat
        rcases sep_eq ht2 ht hc with ⟨he1, _⟩
        exact ⟨rfl, he1.symm⟩
      | false =>
        simp [kindPfx, intPfx, extPfx, List.cons_append] at hflat
    | false =>
      cases i2 with
      | true =>
        simp [kindPfx, intPfx, extPfx, List.cons_append] at hflat
      | false =>
        have hc : t2 ++ 0 :: id2 = t ++ 0 :: r := by
          simpa [kindPfx, extPfx, List.cons_append] using hflat
        rcases sep_eq ht2 ht hc with ⟨he1, _⟩
        exact ⟨rfl, he1.symm⟩
  · intro h
    rcases h with ⟨hi, htt⟩
    subst hi
    subst htt
    rw [termKey_assoc]
    exact hasPfx_append _ _

theorem termKey_drop (isInt : Bool) (t id : Bytes) :
    (termKey isInt t id).drop (kindPfx isInt ++ t ++ [0]).length = id := by
  rw [termKey_assoc]
  exact List.drop_left _ _

/-! ## Batch-sequence lemmas -/

theorem runBatchesE_index_mem {batches : List (List IndexEntryM)} :
    ∀ {s s2 : Store}, runBatchesE s batches = some s2 →
      ∀ {kv : Bytes × Bytes}, kv ∈ s2.index →
        kv ∈ s.index ∨ ∃ b ∈ batches, ∃ e ∈ b,
          ((∃ t ∈ e.interiorTerms, kv = (termKey true t e.id, [49])) ∨
            (∃ t ∈ e.exteriorTerms, kv = (termKey false t e.id, [49]))) ∧ e.id ≠ [] := by
  induction batches with
  | nil =>
    intro s s2 h kv hkv
    simp only [runBatchesE] at h
    cases h
    exact Or.inl hkv
  | cons b0 rest ih =>
    intro s s2 h kv hkv
    simp only [runBatchesE] at h
    cases hb : writeBatchBody s b0 with
    | error err => rw [hb] at h; cases h
    | ok s1 =>
      rw [hb] at h
      rcases ih h hkv with h1 | ⟨b, hbm, e, hem, hprop⟩
      · rcases writeBatchBody_index_mem hb h1 with h2 | ⟨e, hem, hprop⟩
        · exact Or.inl h2
        · exact Or.inr ⟨b0, List.mem_cons_self _ _, e, hem, hprop⟩
      · exact Or.inr ⟨b, List.mem_cons_of_mem _ hbm, e, hem, hprop⟩

theorem runBatchesE_index_pres {batches : List (List IndexEntryM)} :
    ∀ {s s2 : Store}, runBatchesE s batches = some s2 →
      ∀ {k : Bytes}, bfind s.index k = some [49] → bfind s2.index k = some [49] := by
  induction batches with
  | nil =>
    intro s s2 h k hk
    simp only [runBatchesE] at h
    cases h
    exact hk
  | cons b0 rest ih =>
    intro s s2 h k hk
    simp only [runBatchesE] at h
    cases hb : writeBatchBody s b0 with
    | error err => rw [hb] at h; cases h
    | ok s1 =>
      rw [hb] at h
      exact ih h (writeBatchBody_index_pres hb hk)

theorem runBatchesE_index_sets {batches : List (List IndexEntryM)} :
    ∀ {s s2 : Store}, runBatchesE s batches = some s2 →
      ∀ b ∈ batches, ∀ e ∈ b,
        (∀ t ∈ e.interiorTerms, bfind s2.index (termKey true t e.id) = some [49]) ∧
          (∀ t ∈ e.exteriorTerms, bfind s2.index (termKey false t e.id) = some [49]) := by
  induction batches with
  | nil =>
    intro s s2 h b hb
    cases hb
  | cons b0 rest ih =>
    intro s s2 h b hb e he
    simp only [runBatchesE] at h
    cases hwb : writeBatchBody s b0 with
    | error err => rw [hwb] at h; cases h
    | ok s1 =>
      rw [hwb] at h
      rcases List.mem_cons.mp hb with heq | hmem
      · subst heq
        rcases writeBatchBody_index_sets hwb e he with ⟨hint, hext⟩
        constructor
        · intro t ht
          exact runBatchesE_index_pres h (hint t ht)
        · intro t ht
          exact runBatchesE_index_pres h (hext t ht)
      · exact ih h b hmem e he

theorem runBatches_index_wf {batches : List (List IndexEntryM)} :
    ∀ {s : Store}, ∀ kv ∈ (runBatches s batches).index,
      kv ∈ s.index ∨ (kv.2 = [49] ∧ ∃ isInt t id, kv.1 = termKey isInt t id ∧ id ≠ []) := by
  induction batches with
  | nil =>
    intro s kv hkv
    exact Or.inl hkv
  | cons b0 rest ih =>
    intro s kv hkv
    simp only [runBatches] at hkv
    rcases ih _ hkv with h1 | h2
    · simp only [WriteBatch] at h1
      cases hb : writeBatchBody s b0 with
      | error err =>
        rw [hb] at h1
        exact Or.inl h1
      | ok s1 =>
        rw [hb] at h1
        rcases writeBatchBody_index_mem hb h1 with h2 | ⟨e, _, hform, hne⟩
        · exact Or.inl h2
        · rcases hform with ⟨t, _, hkv2⟩ | ⟨t, _, hkv2⟩
          · exact Or.inr ⟨by rw [hkv2], true, t, e.id, by rw [hkv2], hne⟩
          · exact Or.inr ⟨by rw [hkv2], false, t, e.id, by rw [hkv2], hne⟩
    · exact Or.inr h2

/-! ## Blob round-trip lemmas -/

theorem decodePoints_enc (L : S2Lib)
    (hp : ∀ p r, L.pointDec (L.pointEnc p ++ r) = some (p, r)) :
    ∀ (pts : List S2Point) (junk : Bytes),
      decodePoints L pts.length (pts.flatMap L.pointEnc ++ junk) = some pts := by
  intro pts
  induction pts with
  | nil =>
    intro junk
    simp [decodePoints]
  | cons p rest ih =>
    intro junk
    have hsplit : (p :: rest).flatMap L.pointEnc ++ junk
        = L.pointEnc p ++ (rest.flatMap L.pointEnc ++ junk) := by
      simp [List.flatMap_cons, List.append_assoc]
    rw [List.length_cons, hsplit]
    simp only [decodePoints, hp p (rest.flatMap L.pointEnc ++ junk), ih junk]
    rfl

theorem scanShapeInfos_table (L : S2Lib) :
    ∀ (shapes : List S2ShapeM) (acc : List ShapeInfo) (pos : Nat) (post : Bytes) (total : Nat),
      total = pos + (shapes.flatMap (shapeFrame L)).length + post.length →
      (∀ s ∈ shapes, (encBody L s).length < 2 ^ 64) →
      scanShapeInfos total (shapes.flatMap (shapeFrame L) ++ post) shapes.length acc
        = some (acc.reverse ++ mkInfos L shapes pos, post) := by
  intro shapes
  induction shapes with
  | nil =>
    intro acc pos post total htot hb
    simp [scanShapeInfos, mkInfos]
  | cons s rest ih =>
    intro acc pos post total htot hb
    have hblen : (encBody L s).length < 2 ^ 64 := hb s (List.mem_cons_self _ _)
    have hflat : (s :: rest).flatMap (shapeFrame L) ++ post
        = typeByteOf s :: (putUvarint (encBody L s).length
            ++ (encBody L s ++ (rest.flatMap (shapeFrame L) ++ post))) := by
      simp [List.flatMap_cons, shapeFrame, List.append_assoc]
    rw [List.length_cons, hflat]
    simp only [scanShapeInfos]
    rw [readUvarint_putUvarint hblen]
    dsimp only
    have hdrop : (encBody L s ++ (rest.flatMap (shapeFrame L) ++ post)).drop (encBody L s).length
        = rest.flatMap (shapeFrame L) ++ post := List.drop_left _ _
    rw [hdrop]
    have hofs : total - (encBody L s ++ (rest.flatMap (shapeFrame L) ++ post)).length
        = pos + 1 + (putUvarint (encBody L s).length).length := by
      have hfr : ((s :: rest).flatMap (shapeFrame L)).length
          = 1 + (putUvarint (encBody L s).length).length + (encBody L s).length
            + (rest.flatMap (shapeFrame L)).length := by
        simp [List.flatMap_cons, shapeFrame, List.length_append]
        omega
      rw [hfr] at htot
      simp only [List.length_append]
      omega
    rw [hofs]
    have hrec := ih ((⟨pos + 1 + (putUvarint (encBody L s).length).length,
        (encBody L s).length, typeByteOf s⟩ : ShapeInfo) :: acc)
      (pos + (1 + (putUvarint (encBody L s).length).length) + (encBody L s).length) post total
      (by
        have hfr : ((s :: rest).flatMap (shapeFrame L)).length
            = 1 + (putUvarint (encBody L s).length).length + (encBody L s).length
              + (rest.flatMap (shapeFrame L)).length := by
          simp [List.flatMap_cons, shapeFrame, List.length_append]
          omega
        rw [hfr] at htot
        omega)
      (fun s2 hs2 => hb s2 (List.mem_cons_of_mem _ hs2))
    rw [hrec]
    simp only [mkInfos, List.reverse_cons, List.append_assoc, List.cons_append, List.nil_append]
    have ha : pos + 1 + (putUvarint (encBody L s).length).length
        = pos + (1 + (putUvarint (encBody L s).length).length) := by omega
    rw [ha]

theorem encodeFullEntry_split (L : S2Lib) (shapes : List S2ShapeM) (props : Bytes) :
    encodeFullEntry L shapes props
      = blobHeader shapes props ++ (shapes.flatMap (shapeFrame L) ++ L.indexEnc shapes) := by
  simp [encodeFullEntry, blobHeader, List.append_assoc]

theorem mkInfos_length (L : S2Lib) :
    ∀ (shapes : List S2ShapeM) (pos : Nat), (mkInfos L shapes pos).length = shapes.length := by
  intro shapes
  induction shapes with
  | nil => intro pos; rfl
  | cons s rest ih =>
    intro pos
    simp only [mkInfos, List.length_cons, ih]

theorem decodeFullEntry_encode (L : S2Lib) (shapes : List S2ShapeM) (props : Bytes)
    (hp : props.length < 2 ^ 64) (hs : shapes.length < 2 ^ 64)
    (hb : ∀ s ∈ shapes, (encBody L s).length < 2 ^ 64)
    (hidx : L.indexOk (L.indexEnc shapes) = true) :
    decodeFullEntry L (encodeFullEntry L shapes props)
      = some (props, mkInfos L shapes (blobHeader shapes props).length, L.indexEnc shapes) := by
  have hdata : encodeFullEntry L shapes props
      = putUvarint props.length ++ (props ++ (putUvarint shapes.length
          ++ (shapes.flatMap (shapeFrame L) ++ L.indexEnc shapes))) := by
    simp [encodeFullEntry, List.append_assoc]
  rw [decodeFullEntry, hdata, readUvarint_putUvarint hp]
  dsimp only
  have hnlt : ¬ (props ++ (putUvarint shapes.length
      ++ (shapes.flatMap (shapeFrame L) ++ L.indexEnc shapes))).length < props.length := by
    simp [List.length_append]
  rw [if_neg hnlt]
  rw [List.take_left, List.drop_left, readUvarint_putUvarint hs]
  dsimp only
  have hscan := scanShapeInfos_table L shapes [] (blobHeader shapes props).length
    (L.indexEnc shapes)
    (putUvarint props.length ++ (props ++ (putUvarint shapes.length
      ++ (shapes.flatMap (shapeFrame L) ++ L.indexEnc shapes)))).length
    (by simp [blobHeader, List.length_append]; omega)
    hb
  rw [hscan]
  dsimp only
  rw [hidx]
  simp

theorem mkInfos_spec (L : S2Lib) :
    ∀ (shapes : List S2ShapeM) (pre post : Bytes) (i : Nat) (hi : i < shapes.length),
      ∃ info junk,
        (mkInfos L shapes pre.length)[i]? = some info ∧
        info.typ = typeByteOf (shapes.get ⟨i, hi⟩) ∧
        info.length = (encBody L (shapes.get ⟨i, hi⟩)).length ∧
        (pre ++ (shapes.flatMap (shapeFrame L) ++ post)).drop info.offset
          = encBody L (shapes.get ⟨i, hi⟩) ++ junk := by
  intro shapes
  induction shapes with
  | nil =>
    intro pre post i hi
    cases hi
  | cons s rest ih =>
    intro pre post i hi
    cases i with
    | zero =>
      refine ⟨⟨pre.length + 1 + (putUvarint (encBody L s).length).length,
        (encBody L s).length, typeByteOf s⟩,
        rest.flatMap (shapeFrame L) ++ post, ?_, rfl, rfl, ?_⟩
      · simp [mkInfos]
        omega
      · have hsplit : pre ++ ((s :: rest).flatMap (shapeFrame L) ++ post)
            = (pre ++ typeByteOf s :: putUvarint (encBody L s).length)
              ++ (encBody L s ++ (rest.flatMap (shapeFrame L) ++ post)) := by
          simp [List.flatMap_cons, shapeFrame, List.append_assoc]
        rw [hsplit]
        have hlen : (pre ++ typeByteOf s :: putUvarint (encBody L s).length).length
            = pre.length + 1 + (putUvarint (encBody L s).length).length := by
          simp
          omega
        rw [← hlen]
        exact List.drop_left _ _
    | succ j =>
      have hj : j < rest.length := Nat.lt_of_succ_lt_succ hi
      have hrec := ih (pre ++ shapeFrame L s) post j hj
      rcases hrec with ⟨info, junk, hget, htyp, hlen, hdrop⟩
      refine ⟨info, junk, ?_, htyp, hlen, ?_⟩
      · have hlen2 : (pre ++ shapeFrame L s).length
            = pre.length + (1 + (putUvarint (encBody L s).length).length) + (encBody L s).length := by
          simp [shapeFrame]
          omega
        rw [hlen2] at hget
        simpa [mkInfos] using hget
      · have hassoc : pre ++ ((s :: rest).flatMap (shapeFrame L) ++ post)
            = (pre ++ shapeFrame L s) ++ (rest.flatMap (shapeFrame L) ++ post) := by
          simp [List.flatMap_cons, List.append_assoc]
        rw [hassoc]
        exact hdrop

theorem getShape_encode (L : S2Lib) (shapes : List S2ShapeM) (props : Bytes)
    (hpt : ∀ p r, L.pointDec (L.pointEnc p ++ r) = some (p, r))
    (hpl : ∀ pts, L.polylineDec (L.polylineEnc pts) = some pts)
    (hpg : ∀ b, L.polygonDec (L.polygonEnc b) = some b)
    (hcnt : ∀ pts, S2ShapeM.pointVector pts ∈ shapes → pts.length < 2 ^ 64)
    (i : Nat) (hi : i < shapes.length) :
    getShape L (encodeFullEntry L shapes props)
        (mkInfos L shapes (blobHeader shapes props).length) i
      = some (shapes.get ⟨i, hi⟩) := by
  have hspec := mkInfos_spec L shapes (blobHeader shapes props) (L.indexEnc shapes) i hi
  rcases hspec with ⟨info, junk, hget, htyp, hlen, hdrop⟩
  rw [← encodeFullEntry_split] at hdrop
  rw [getShape, hget]
  dsimp only
  cases hshape : shapes.get ⟨i, hi⟩ with
  | pointVector pts =>
    rw [hshape] at htyp hlen hdrop
    have ht1 : info.typ = 1 := htyp
    rw [if_pos ht1]
    have hdrop2 : (encodeFullEntry L shapes props).drop info.offset
        = putUvarint pts.length ++ (pts.flatMap L.pointEnc ++ junk) := by
      rw [hdrop]
      simp [encBody, List.append_assoc]
    have hmem : S2ShapeM.pointVector pts ∈ shapes := by
      rw [← hshape]
      exact List.get_mem shapes i hi
    rw [hdrop2, readUvarint_putUvarint (hcnt pts hmem)]
    dsimp only
    rw [decodePoints_enc L hpt pts junk]
    rfl
  | polyline pts =>
    rw [hshape] at htyp hlen hdrop
    have ht1 : ¬ info.typ = 1 := by rw [htyp]; simp [typeByteOf]
    have ht2 : info.typ = 2 := htyp
    rw [if_neg ht1, if_pos ht2, hlen, hdrop]
    have htake : (encBody L (S2ShapeM.polyline pts) ++ junk).take (encBody L (S2ShapeM.polyline pts)).length
        = L.polylineEnc pts := by
      rw [List.take_left]
      rfl
    rw [htake, hpl pts]
    rfl
  | polygon b =>
    rw [hshape] at htyp hlen hdrop
    have ht1 : ¬ info.typ = 1 := by rw [htyp]; simp [typeByteOf]
    have ht2 : ¬ info.typ = 2 := by rw [htyp]; simp [typeByteOf]
    have ht3 : info.typ = 3 := htyp
    rw [if_neg ht1, if_neg ht2, if_pos ht3, hlen, hdrop]
    have htake : (encBody L (S2ShapeM.polygon b) ++ junk).take (encBody L (S2ShapeM.polygon b)).length
        = L.polygonEnc b := by
      rw [List.take_left]
      rfl
    rw [htake, hpg b]
    rfl

/-! ## Query-engine lemmas -/

theorem kindPfx_true : kindPfx true = intPfx := rfl

theorem kindPfx_false : kindPfx false = extPfx := rfl

theorem mem_gatherInt {st : Store} {qterms : List Bytes} {t id : Bytes}
    (hq : t ∈ qterms) (hrow : bfind st.index (termKey true t id) = some [49]) :
    id ∈ gatherInt st qterms := by
  rw [gatherInt, List.mem_dedup]
  refine List.mem_flatMap.mpr ⟨t, hq, ?_⟩
  rw [mem_scanIds]
  refine ⟨(termKey true t id, [49]), bfind_mem hrow, ?_, ?_⟩
  · show hasPfx (termKey true t id) (intPfx ++ t ++ [0]) = true
    rw [← kindPfx_true, termKey_assoc]
    exact hasPfx_append _ _
  · show (termKey true t id).drop (intPfx ++ t ++ [0]).length = id
    rw [← kindPfx_true]
    exact termKey_drop _ _ _

theorem mem_gatherExt {st : Store} {qterms : List Bytes} {t id : Bytes}
    (hq : t ∈ qterms) (hrow : bfind st.index (termKey false t id) = some [49])
    {intC : List Bytes} (hni : id ∉ intC) :
    id ∈ gatherExt st qterms intC := by
  rw [gatherExt, List.mem_filter]
  constructor
  · rw [List.mem_dedup]
    refine List.mem_flatMap.mpr ⟨t, hq, ?_⟩
    rw [mem_scanIds]
    refine ⟨(termKey false t id, [49]), bfind_mem hrow, ?_, ?_⟩
    · show hasPfx (termKey false t id) (extPfx ++ t ++ [0]) = true
      rw [← kindPfx_false, termKey_assoc]
      exact hasPfx_append _ _
    · show (termKey false t id).drop (extPfx ++ t ++ [0]).length = id
      rw [← kindPfx_false]
      exact termKey_drop _ _ _
  · exact decide_eq_true hni

theorem processCandidate_strip (L : S2Lib) (bObj : Bucket) (id : Bytes) (center : S2Point)
    (angleRadius : ℚ) (isInt : Bool) :
    processCandidate L bObj id center angleRadius false isInt
      = Option.map stripGeom (processCandidate L bObj id center angleRadius true isInt) := by
  simp only [processCandidate]
  cases bfind bObj id with
  | none => rfl
  | some data =>
    dsimp only
    cases decodeFullEntry L data with
    | none => rfl
    | some tri =>
      rcases tri with ⟨propsJSON, rest⟩
      rcases rest with ⟨infos, idxBytes⟩
      dsimp only
      cases hcull : cellCull L idxBytes center (L.chordOfAngle angleRadius) with
      | false => simp
      | true =>
        simp only [if_true]
        cases candidateDist L ((List.range infos.length).map (getShape L data infos)) center isInt with
        | none => rfl
        | some d =>
          dsimp only
          by_cases hd : d ≤ angleRadius
          · rw [if_pos hd, if_pos hd]
            simp [stripGeom]
          · rw [if_neg hd, if_neg hd]
            rfl

theorem orderedInsert_strip (a : StoredItemM) (l : List StoredItemM) :
    List.orderedInsert itemLE (stripGeom a) (l.map stripGeom)
      = (List.orderedInsert itemLE a l).map stripGeom := by
  induction l with
  | nil => rfl
  | cons b rest ih =>
    simp only [List.map_cons, List.orderedInsert]
    by_cases h : itemLE a b
    · have h2 : itemLE (stripGeom a) (stripGeom b) := h
      rw [if_pos h2, if_pos h, List.map_cons, List.map_cons]
    · have h2 : ¬ itemLE (stripGeom a) (stripGeom b) := h
      rw [if_neg h2, if_neg h, List.map_cons, ih]

theorem insertionSort_strip (l : List StoredItemM) :
    List.insertionSort itemLE (l.map stripGeom) = (List.insertionSort itemLE l).map stripGeom := by
  induction l with
  | nil => rfl
  | cons a rest ih =>
    simp only [List.insertionSort, List.map_cons, ih, orderedInsert_strip]

theorem processCandidate_interior_zero (L : S2Lib) (bObj : Bucket) (id : Bytes)
    (center : S2Point) (angleRadius : ℚ) (w : Bool)
    {data propsJSON idxBytes : Bytes} {infos : List ShapeInfo} {b : PolyBody}
    (hdata : bfind bObj id = some data)
    (hdec : decodeFullEntry L data = some (propsJSON, infos, idxBytes))
    (hcull : cellCull L idxBytes center (L.chordOfAngle angleRadius) = true)
    (hhead : getShape L data infos 0 = some (.polygon b))
    (hcont : L.polyContains b center = true)
    (hrad : 0 ≤ angleRadius) :
    ∃ item, processCandidate L bObj id center angleRadius w true = some item ∧
      item.id = id ∧ item.distance = 0 := by
  have hinfos : infos ≠ [] := by
    intro hc
    rw [getShape, hc] at hhead
    simp at hhead
  have hlen : ∃ k, infos.length = k + 1 := by
    cases infos with
    | nil => exact absurd rfl hinfos
    | cons a rest => exact ⟨rest.length, rfl⟩
  rcases hlen with ⟨k, hk⟩
  have hshapes : (List.range infos.length).map (getShape L data infos)
      = getShape L data infos 0
        :: (List.range k).map (fun j => getShape L data infos (Nat.succ j)) := by
    rw [hk, List.range_succ_eq_map]
    simp [List.map_map]
  have hne : (List.range infos.length).map (getShape L data infos) ≠ [] := by
    rw [hshapes]
    exact List.cons_ne_nil _ _
  have hdist : candidateDist L ((List.range infos.length).map (getShape L data infos)) center true
      = some 0 := by
    rw [candidateDist, if_pos ⟨rfl, hne⟩]
    rw [hshapes]
    simp only [List.head?_cons, hhead]
    rw [if_pos hcont]
  refine ⟨⟨id, if w then some (shapesToGeom ((List.range infos.length).map (getShape L data infos)))
    else none, L.jsonUnmarshal propsJSON, 0⟩, ?_, rfl, rfl⟩
  rw [processCandidate, hdata]
  dsimp only
  rw [hdec]
  dsimp only
  rw [if_pos hcull, hdist]
  dsimp only
  rw [if_pos hrad]
  simp

/-! ## Claim theorems -/

/-- C9: for every store state and every query, the list returned by
`FindClosest` is sorted in ascending order of the `Distance` field: for
every pair of indices `i < j` in the result,
`result[i].Distance ≤ result[j].Distance`. -/
theorem c9_results_sorted (L : S2Lib) (st : Store) (lat lng radiusMeters : ℚ) (w : Bool) :
    List.Pairwise (fun a b : StoredItemM => a.distance ≤ b.distance)
      (findClosest L st lat lng radiusMeters w) := by
  unfold findClosest
  exact List.sorted_insertionSort itemLE _

/-- C10: with `withGeometry = false` every returned `StoredItem` carries
the zero-value (empty) geometry, while its id, properties and distance
are exactly those of the `withGeometry = true` call: the result list is
the geometry-stripped image of the latter. -/
theorem c10_geometry_flag (L : S2Lib) (st : Store) (lat lng radiusMeters : ℚ) :
    findClosest L st lat lng radiusMeters false
        = (findClosest L st lat lng radiusMeters true).map stripGeom
      ∧ ∀ item ∈ findClosest L st lat lng radiusMeters false, item.geometry = none := by
  have hmain : findClosest L st lat lng radiusMeters false
      = (findClosest L st lat lng radiusMeters true).map stripGeom := by
    simp only [findClosest, processCandidate_strip]
    rw [← insertionSort_strip]
    congr 1
    rw [List.map_append, List.map_filterMap, List.map_filterMap]
  refine ⟨hmain, ?_⟩
  intro item hmem
  rw [hmain] at hmem
  rcases List.mem_map.mp hmem with ⟨x, _, hx⟩
  rw [← hx]
  rfl

/-- C8: after any sequence of `Put`/`WriteBatch` calls on a fresh store
(`Put` is a one-entry `WriteBatch`), every key of the index bucket is an
`"int:"` or `"ext:"` marker followed by a term, a single NUL byte and a
non-empty id, and every value is the single byte `'1'`. -/
theorem c8_index_key_invariant (batches : List (List IndexEntryM)) :
    ∀ kv ∈ (runBatches freshStore batches).index,
      kv.2 = [49] ∧
        ∃ isInt t id, kv.1 = kindPfx isInt ++ t ++ [0] ++ id ∧ id ≠ [] := by
  intro kv hkv
  rcases runBatches_index_wf kv hkv with h | h
  · cases h
  · rcases h with ⟨hv, isInt, t, id, hk, hid⟩
    refine ⟨hv, isInt, t, id, ?_, hid⟩
    rw [hk]
    rfl

/-- Witness for C8 at a concrete batch sequence: the single interior
term row written for `cexEntry` decomposes as required. -/
theorem c8_index_key_invariant_witness :
    ((intPfx ++ [12] ++ [0] ++ [102], [49]) ∈ (runBatches freshStore [[cexEntry]]).index) ∧
      ((intPfx ++ [12] ++ [0] ++ [102], ([49] : Bytes)).2 = [49] ∧
        ∃ isInt t id,
          (intPfx ++ [12] ++ [0] ++ [102], ([49] : Bytes)).1
            = kindPfx isInt ++ t ++ [0] ++ id ∧ id ≠ []) := by
  constructor
  · decide
  · exact c8_index_key_invariant [[cexEntry]] _ (by decide)

/-- C6: `WriteBatch` is all-or-nothing. On success every entry's blob is
stored under its id in the objects bucket together with one `"int:"` row
per interior term and one `"ext:"` row per exterior term in the index
bucket; on error the store is exactly as before the call (the rollback
of the single enclosing transaction). Entries are assumed to carry
pairwise distinct ids (a batch writing one id twice keeps only the last
blob). -/
theorem c6_writeBatch_atomic (st : Store) (entries : List IndexEntryM)
    (hids : List.Pairwise (fun a b => a.id ≠ b.id) entries) :
    ((WriteBatch st entries).2 = none →
      ∀ e ∈ entries,
        bfind (WriteBatch st entries).1.objects e.id = some e.blob ∧
          (∀ t ∈ e.interiorTerms,
            bfind (WriteBatch st entries).1.index (intPfx ++ t ++ [0] ++ e.id) = some [49]) ∧
          (∀ t ∈ e.exteriorTerms,
            bfind (WriteBatch st entries).1.index (extPfx ++ t ++ [0] ++ e.id) = some [49]))
      ∧ ((WriteBatch st entries).2.isSome → (WriteBatch st entries).1 = st) := by
  constructor
  · intro hok e he
    cases hwb : writeBatchBody st entries with
    | error err =>
      rw [WriteBatch, hwb] at hok
      cases hok
    | ok s2 =>
      have h1 : (WriteBatch st entries).1 = s2 := by rw [WriteBatch, hwb]
      rw [h1]
      rcases writeBatchBody_index_sets hwb e he with ⟨hint, hext⟩
      exact ⟨writeBatchBody_objects hwb hids e he,
        fun t ht => hint t ht, fun t ht => hext t ht⟩
  · intro hsome
    cases hwb : writeBatchBody st entries with
    | error err => rw [WriteBatch, hwb]
    | ok s2 =>
      rw [WriteBatch, hwb] at hsome
      cases hsome

/-- Witness for C6: a committed batch stores blob and rows; a batch with
an empty id errors and leaves the store untouched. -/
theorem c6_writeBatch_atomic_witness :
    ((WriteBatch freshStore [cexEntry]).2 = none ∧
      bfind (WriteBatch freshStore [cexEntry]).1.objects cexEntry.id = some cexEntry.blob) ∧
      ((WriteBatch freshStore [⟨[], [7], [], []⟩]).2.isSome = true ∧
        (WriteBatch freshStore [⟨[], [7], [], []⟩]).1 = freshStore) := by
  constructor
  · constructor
    · decide
    · exact ((c6_writeBatch_atomic freshStore [cexEntry] (by decide)).1 (by decide)
        cexEntry (by decide)).1
  · constructor
    · decide
    · exact (c6_writeBatch_atomic freshStore [⟨[], [7], [], []⟩] (by decide)).2 (by decide)

/-- C5: prefix-scan exactness. Over any store built by committed
`WriteBatch` calls whose terms contain no NUL byte, the cursor scan of
`FindClosest` over the prefix `kind + term + 0x00` returns exactly the
ids written under that term and kind: nothing from any other term (in
particular no term of which `t` is a proper prefix or extension), and
nothing missed. -/
theorem c5_prefix_scan_exact (batches : List (List IndexEntryM)) (st : Store)
    (hok : runBatchesE freshStore batches = some st)
    (hterms : ∀ b ∈ batches, ∀ e ∈ b,
      (∀ t2 ∈ e.interiorTerms, (0 : Nat) ∉ t2) ∧ (∀ t2 ∈ e.exteriorTerms, (0 : Nat) ∉ t2))
    (isInt : Bool) (t : Bytes) (ht : (0 : Nat) ∉ t) (id : Bytes) :
    id ∈ scanIds st.index (kindPfx isInt ++ t ++ [0]) ↔
      ∃ b ∈ batches, ∃ e ∈ b, e.id = id ∧
        t ∈ (if isInt then e.interiorTerms else e.exteriorTerms) := by
  constructor
  · intro hmem
    rcases (mem_scanIds _ _ _).mp hmem with ⟨kv, hkv, hpfx, hdrop⟩
    rcases runBatchesE_index_mem hok hkv with hbase | ⟨b, hb, e, he, hform, _⟩
    · cases hbase
    · rcases hform with ⟨t2, ht2m, hkv2⟩ | ⟨t2, ht2m, hkv2⟩
      · have ht2 : (0 : Nat) ∉ t2 := (hterms b hb e he).1 t2 ht2m
        rw [hkv2] at hpfx hdrop
        rcases (hasPfx_termKey_iff ht ht2).mp hpfx with ⟨hi, htt⟩
        subst htt
        rw [← hi] at hdrop
        rw [termKey_drop] at hdrop
        refine ⟨b, hb, e, he, hdrop, ?_⟩
        rw [hi]
        simpa using ht2m
      · have ht2 : (0 : Nat) ∉ t2 := (hterms b hb e he).2 t2 ht2m
        rw [hkv2] at hpfx hdrop
        rcases (hasPfx_termKey_iff ht ht2).mp hpfx with ⟨hi, htt⟩
        subst htt
        rw [← hi] at hdrop
        rw [termKey_drop] at hdrop
        refine ⟨b, hb, e, he, hdrop, ?_⟩
        rw [hi]
        simpa using ht2m
  · intro hex
    rcases hex with ⟨b, hb, e, he, hid, htm⟩
    have hrow : bfind st.index (termKey isInt t e.id) = some [49] := by
      rcases runBatchesE_index_sets hok b hb e he with ⟨hint, hext⟩
      cases isInt with
      | true => exact hint t (by simpa using htm)
      | false => exact hext t (by simpa using htm)
    rw [mem_scanIds]
    refine ⟨(termKey isInt t e.id, [49]), bfind_mem hrow, ?_, ?_⟩
    · rw [termKey_assoc]
      exact hasPfx_append _ _
    · rw [termKey_drop]
      exact hid

/-- Witness for C5 at a one-entry history: the interior scan for term
`[12]` returns exactly the stored id. -/
theorem c5_prefix_scan_exact_witness :
    (runBatchesE freshStore [[cexEntry]] = some cexStore) ∧
      ([102] ∈ scanIds cexStore.index (kindPfx true ++ [12] ++ [0]) ↔
        ∃ b ∈ [[cexEntry]], ∃ e ∈ b, e.id = [102] ∧
          [12] ∈ (if true then e.interiorTerms else e.exteriorTerms)) := by
  refine ⟨by decide, ?_⟩
  exact c5_prefix_scan_exact [[cexEntry]] cexStore (by decide) (by decide) true [12]
    (by decide) [102]

theorem prepareIndexEntry_eq (L : S2Lib) (id : Bytes) (f : FeatureM)
    {shapes : List S2ShapeM} {regions : List RegionM}
    (hne : f.geometry ≠ .empty)
    (hg : geomToS2 L f.geometry = some (shapes, regions)) :
    prepareIndexEntry L id f
      = some ⟨id, encodeFullEntry L shapes (L.jsonMarshal f.properties),
          dedupTerms (regions.flatMap (fun r => L.canonicalTerms (L.interiorCovering r))),
          dedupTerms (regions.flatMap (fun r => L.canonicalTerms (L.covering r)))⟩ := by
  rw [prepareIndexEntry, if_neg hne, hg]

theorem pointLike_ne_empty {g : GeomIn} (h : pointLike g = true) : g ≠ .empty := by
  cases g <;> simp_all [pointLike]

theorem polygonal_ne_empty {g : GeomIn} (h : polygonal g = true) : g ≠ .empty := by
  cases g <;> simp_all [polygonal]

theorem pointLike_regions (L : S2Lib) {g : GeomIn} (h : pointLike g = true)
    {shapes : List S2ShapeM} {regions : List RegionM}
    (hg : geomToS2 L g = some (shapes, regions)) :
    ∀ reg ∈ regions, ∀ c, regionContainsCell L reg c = false := by
  cases g with
  | point p =>
    simp only [geomToS2, Option.some.injEq, Prod.mk.injEq] at hg
    intro reg hreg c
    rw [← hg.2] at hreg
    simp at hreg
    rw [hreg]
    rfl
  | lineString pts =>
    simp only [geomToS2, Option.some.injEq, Prod.mk.injEq] at hg
    intro reg hreg c
    rw [← hg.2] at hreg
    simp at hreg
    rw [hreg]
    rfl
  | multiPoint ps =>
    simp only [geomToS2, Option.some.injEq, Prod.mk.injEq] at hg
    intro reg hreg c
    rw [← hg.2] at hreg
    rcases List.mem_map.mp hreg with ⟨pt, _, hpt⟩
    rw [← hpt]
    rfl
  | multiLineString ls =>
    simp only [geomToS2, Option.some.injEq, Prod.mk.injEq] at hg
    intro reg hreg c
    rw [← hg.2] at hreg
    rcases List.mem_map.mp hreg with ⟨pl, _, hpl⟩
    rw [← hpl]
    rfl
  | empty => cases h
  | polygon rings => cases h
  | multiPolygon polys => cases h
  | collection => cases h

/-- C7: point, multipoint, linestring and multilinestring features get an
empty interior term set and a non-empty exterior term set (their regions
answer `ContainsCell` with false, so the interior covering is empty);
polygon and multipolygon features whose interior covering is non-empty
(any polygon large enough to contain a grid cell between levels 4 and
16) get both sets non-empty. Library contracts assumed: cells of
`InteriorCovering` satisfy `ContainsCell`; the canonical terms of an
empty covering are empty; the stated coverings of the feature's own
regions produce non-empty term lists. -/
theorem c7_interior_exterior_terms (L : S2Lib)
    (hIntCov : ∀ reg c, c ∈ L.interiorCovering reg → regionContainsCell L reg c = true)
    (hCanonNil : L.canonicalTerms [] = []) :
    (∀ (id : Bytes) (f : FeatureM) (shapes : List S2ShapeM) (regions : List RegionM)
        (e : IndexEntryM),
      pointLike f.geometry = true →
      geomToS2 L f.geometry = some (shapes, regions) →
      regions ≠ [] →
      (∀ reg ∈ regions, L.canonicalTerms (L.covering reg) ≠ []) →
      prepareIndexEntry L id f = some e →
      e.interiorTerms = [] ∧ e.exteriorTerms ≠ []) ∧
    (∀ (id : Bytes) (f : FeatureM) (shapes : List S2ShapeM) (regions : List RegionM)
        (e : IndexEntryM),
      polygonal f.geometry = true →
      geomToS2 L f.geometry = some (shapes, regions) →
      regions ≠ [] →
      (∀ reg ∈ regions, L.canonicalTerms (L.covering reg) ≠ [] ∧
        L.canonicalTerms (L.interiorCovering reg) ≠ []) →
      prepareIndexEntry L id f = some e →
      e.interiorTerms ≠ [] ∧ e.exteriorTerms ≠ []) := by
  constructor
  · intro id f shapes regions e hpl hg hrne hcov hprep
    rw [prepareIndexEntry_eq L id f (pointLike_ne_empty hpl) hg] at hprep
    cases hprep
    constructor
    · show dedupTerms (regions.flatMap (fun r => L.canonicalTerms (L.interiorCovering r))) = []
      have hflat : regions.flatMap (fun r => L.canonicalTerms (L.interiorCovering r)) = [] := by
        rw [List.flatMap_eq_nil_iff]
        intro reg hreg
        have hempty : L.interiorCovering reg = [] := by
          rw [List.eq_nil_iff_forall_not_mem]
          intro c hc
          have h1 := hIntCov reg c hc
          have h2 := pointLike_regions L hpl hg reg hreg c
          rw [h1] at h2
          cases h2
        rw [hempty, hCanonNil]
      rw [dedupTerms, hflat]
      rfl
    · show dedupTerms (regions.flatMap (fun r => L.canonicalTerms (L.covering r))) ≠ []
      cases regions with
      | nil => exact absurd rfl hrne
      | cons r0 rest =>
        have hc0 : L.canonicalTerms (L.covering r0) ≠ [] := hcov r0 (List.mem_cons_self _ _)
        cases hterm : L.canonicalTerms (L.covering r0) with
        | nil => exact absurd hterm hc0
        | cons x xs =>
          have hxmem : x ∈ (r0 :: rest).flatMap (fun r => L.canonicalTerms (L.covering r)) := by
            refine List.mem_flatMap.mpr ⟨r0, List.mem_cons_self _ _, ?_⟩
            rw [hterm]
            exact List.mem_cons_self _ _
          intro hnil
          rw [dedupTerms] at hnil
          have := List.mem_dedup.mpr hxmem
          rw [hnil] at this
          cases this
  · intro id f shapes regions e hpg hg hrne hcov hprep
    rw [prepareIndexEntry_eq L id f (polygonal_ne_empty hpg) hg] at hprep
    cases hprep
    constructor
    · show dedupTerms (regions.flatMap (fun r => L.canonicalTerms (L.interiorCovering r))) ≠ []
      cases regions with
      | nil => exact absurd rfl hrne
      | cons r0 rest =>
        have hc0 : L.canonicalTerms (L.interiorCovering r0) ≠ [] :=
          (hcov r0 (List.mem_cons_self _ _)).2
        cases hterm : L.canonicalTerms (L.interiorCovering r0) with
        | nil => exact absurd hterm hc0
        | cons x xs =>
          have hxmem : x ∈ (r0 :: rest).flatMap (fun r => L.canonicalTerms (L.interiorCovering r)) := by
            refine List.mem_flatMap.mpr ⟨r0, List.mem_cons_self _ _, ?_⟩
            rw [hterm]
            exact List.mem_cons_self _ _
          intro hnil
          rw [dedupTerms] at hnil
          have := List.mem_dedup.mpr hxmem
          rw [hnil] at this
          cases this
    · show dedupTerms (regions.flatMap (fun r => L.canonicalTerms (L.covering r))) ≠ []
      cases regions with
      | nil => exact absurd rfl hrne
      | cons r0 rest =>
        have hc0 : L.canonicalTerms (L.covering r0) ≠ [] := (hcov r0 (List.mem_cons_self _ _)).1
        cases hterm : L.canonicalTerms (L.covering r0) with
        | nil => exact absurd hterm hc0
        | cons x xs =>
          have hxmem : x ∈ (r0 :: rest).flatMap (fun r => L.canonicalTerms (L.covering r)) := by
            refine List.mem_flatMap.mpr ⟨r0, List.mem_cons_self _ _, ?_⟩
            rw [hterm]
            exact List.mem_cons_self _ _
          intro hnil
          rw [dedupTerms] at hnil
          have := List.mem_dedup.mpr hxmem
          rw [hnil] at this
          cases this

theorem mem_findClosest_interior (L : S2Lib) (st : Store) (lat lng radiusMeters : ℚ) (w : Bool)
    {id : Bytes} {item : StoredItemM}
    (hid : id ∈ gatherInt st (L.queryTerms (L.mkPoint lat lng) (radiusMeters / 6371000)))
    (hpc : processCandidate L st.objects id (L.mkPoint lat lng) (radiusMeters / 6371000) w true
      = some item) :
    item ∈ findClosest L st lat lng radiusMeters w := by
  unfold findClosest
  apply (List.Perm.mem_iff (List.perm_insertionSort itemLE _)).mpr
  apply List.mem_append_left
  exact List.mem_filterMap.mpr ⟨id, hid, hpc⟩

/-- C2 amended: a stored polygon that contains the query point is
returned with distance exactly 0 when its id is gathered through the
interior term set (and its blob decodes, the cell cull passes, and the
radius is non-negative). When the id is gathered only through the
exterior term set the code computes the minimum edge distance instead,
so the distance is not 0 for a strictly interior query point - see the
counterexample. -/
theorem c2_interior_zero_distance (L : S2Lib) (st : Store) (lat lng radiusMeters : ℚ)
    (w : Bool) (id data propsJSON idxBytes : Bytes) (infos : List ShapeInfo) (b : PolyBody)
    (hid : id ∈ gatherInt st (L.queryTerms (L.mkPoint lat lng) (radiusMeters / 6371000)))
    (hdata : bfind st.objects id = some data)
    (hdec : decodeFullEntry L data = some (propsJSON, infos, idxBytes))
    (hcull : cellCull L idxBytes (L.mkPoint lat lng)
      (L.chordOfAngle (radiusMeters / 6371000)) = true)
    (hhead : getShape L data infos 0 = some (.polygon b))
    (hcont : L.polyContains b (L.mkPoint lat lng) = true)
    (hrad : 0 ≤ radiusMeters) :
    ∃ item ∈ findClosest L st lat lng radiusMeters w, item.id = id ∧ item.distance = 0 := by
  have hrad2 : 0 ≤ radiusMeters / 6371000 := by
    apply div_nonneg hrad
    norm_num
  rcases processCandidate_interior_zero L st.objects id (L.mkPoint lat lng)
    (radiusMeters / 6371000) w hdata hdec hcull hhead hcont hrad2 with ⟨item, hpc, hiid, hdist⟩
  exact ⟨item, mem_findClosest_interior L st lat lng radiusMeters w hid hpc, hiid, hdist⟩

/-- Witness for the amended C2: the polygon of `cexEntry`, matched via
its interior term, comes back at distance exactly 0. -/
theorem c2_interior_zero_distance_witness :
    ∃ item ∈ findClosest toyLib cexStore 0 0 6371000 false,
      item.id = [102] ∧ item.distance = 0 :=
  c2_interior_zero_distance toyLib cexStore 0 0 6371000 false [102] cexEntry.blob []
    [0] [⟨4, 6, 3⟩] 5 (by decide) (by decide) (by decide) (by decide) (by decide)
    (by decide) (by norm_num)

/-- Counterexample to C2 as stated: under `cexLibNear` the stored
polygon contains the query point, but its id is gathered only through
the exterior term set, so `processCandidate` computes the minimum edge
distance (2 radians) and the entry comes back with distance
`2 * 6371000` meters, not 0. -/
theorem c2_counterexample :
    cexLibNear.polyContains 5 (cexLibNear.mkPoint 0 0) = true ∧
      findClosest cexLibNear cexStore 0 0 19113000 false
        = [⟨[102], none, some 0, 2 * 6371000⟩] ∧
      (2 : ℚ) * 6371000 ≠ 0 := by
  refine ⟨rfl, ?_, by norm_num⟩
  have hdiv : (19113000 : ℚ) / 6371000 = 3 := by norm_num
  have hpc : processCandidate cexLibNear cexStore.objects [102] (cexLibNear.mkPoint 0 0) 3
      false false = some ⟨[102], none, some 0, 2 * 6371000⟩ := by
    have hdata : bfind cexStore.objects [102] = some cexEntry.blob := by decide
    rw [processCandidate, hdata]
    dsimp only
    have hdec : decodeFullEntry cexLibNear cexEntry.blob
        = some ([], [⟨4, 6, 3⟩], [0]) := by decide
    rw [hdec]
    dsimp only
    have hcull : cellCull cexLibNear [0] (cexLibNear.mkPoint 0 0)
        (cexLibNear.chordOfAngle 3) = true := by decide
    rw [if_pos hcull]
    have hdist : candidateDist cexLibNear
        ((List.range ([(⟨4, 6, 3⟩ : ShapeInfo)] : List ShapeInfo).length).map
          (getShape cexLibNear cexEntry.blob [⟨4, 6, 3⟩]))
        (cexLibNear.mkPoint 0 0) false = some 2 := by decide
    rw [hdist]
    dsimp only
    rw [if_pos (by norm_num : (2 : ℚ) ≤ 3)]
    rfl
  simp only [findClosest]
  rw [hdiv]
  have hq : cexLibNear.queryTerms (cexLibNear.mkPoint 0 0) 3 = [[11]] := rfl
  rw [hq]
  have hint : gatherInt cexStore [[11]] = [] := by decide
  have hext : gatherExt cexStore [[11]] [] = [[102]] := by decide
  rw [hint, hext]
  simp only [List.filterMap_nil, List.filterMap_cons, hpc, List.nil_append]
  simp [List.insertionSort, List.orderedInsert]

/-- C1 amended: the candidate gather of `FindClosest` has no false
negatives. For every entry of a committed `WriteBatch` (so in
particular for every feature installed by `Put` or
`PrepareIndexEntry` + `WriteBatch`), if any query term of the cap meets
the entry's interior or exterior terms - which the S2 term-indexer
contract guarantees whenever the feature intersects the cap - then the
entry's id is gathered as an interior or exterior candidate and handed
to the refinement. The refinement itself can still reject such a
feature (see the counterexample), so membership in the final result
list is not guaranteed. -/
theorem c1_gather_sound (L : S2Lib) (st0 : Store) (entries : List IndexEntryM)
    (e : IndexEntryM) (lat lng radiusMeters : ℚ)
    (he : e ∈ entries)
    (hok : (WriteBatch st0 entries).2 = none)
    (hshared : ∃ t ∈ L.queryTerms (L.mkPoint lat lng) (radiusMeters / 6371000),
      t ∈ e.interiorTerms ∨ t ∈ e.exteriorTerms) :
    e.id ∈ gatherInt (WriteBatch st0 entries).1
        (L.queryTerms (L.mkPoint lat lng) (radiusMeters / 6371000)) ∨
      e.id ∈ gatherExt (WriteBatch st0 entries).1
        (L.queryTerms (L.mkPoint lat lng) (radiusMeters / 6371000))
        (gatherInt (WriteBatch st0 entries).1
          (L.queryTerms (L.mkPoint lat lng) (radiusMeters / 6371000))) := by
  cases hwb : writeBatchBody st0 entries with
  | error err =>
    rw [WriteBatch, hwb] at hok
    cases hok
  | ok s2 =>
    have h1 : (WriteBatch st0 entries).1 = s2 := by rw [WriteBatch, hwb]
    rw [h1]
    rcases hshared with ⟨t, hq, hcase⟩
    rcases writeBatchBody_index_sets hwb e he with ⟨hint, hext⟩
    rcases hcase with hti | hte
    · exact Or.inl (mem_gatherInt hq (hint t hti))
    · by_cases hmem : e.id ∈ gatherInt s2
        (L.queryTerms (L.mkPoint lat lng) (radiusMeters / 6371000))
      · exact Or.inl hmem
      · exact Or.inr (mem_gatherExt hq (hext t hte) hmem)

/-- Witness for the amended C1: `cexEntry`, committed through
`WriteBatch`, shares its interior term with the query terms and is
gathered. -/
theorem c1_gather_sound_witness :
    cexEntry.id ∈ gatherInt (WriteBatch freshStore [cexEntry]).1
        (toyLib.queryTerms (toyLib.mkPoint 0 0) (6371000 / 6371000)) ∨
      cexEntry.id ∈ gatherExt (WriteBatch freshStore [cexEntry]).1
        (toyLib.queryTerms (toyLib.mkPoint 0 0) (6371000 / 6371000))
        (gatherInt (WriteBatch freshStore [cexEntry]).1
          (toyLib.queryTerms (toyLib.mkPoint 0 0) (6371000 / 6371000))) :=
  c1_gather_sound toyLib freshStore [cexEntry] cexEntry 0 0 6371000 (by decide)
    (by decide) ⟨[12], by decide, Or.inl (by decide)⟩

/-- Counterexample to C1 as stated: under `cexLibFar` the stored polygon
contains the query point (so its geometry intersects the query cap) and
its exterior terms meet the query terms, so it is gathered as an
exterior candidate - yet `FindClosest` returns the empty list, because
every cell of the polygon's encoded shape index (all near its far-away
boundary) lies beyond the chord-angle limit and the cell cull rejects
the candidate. -/
theorem c1_counterexample :
    (WriteBatch freshStore [cexEntry]).2 = none ∧
      cexLibFar.polyContains 5 (cexLibFar.mkPoint 0 0) = true ∧
      (∃ t ∈ cexLibFar.queryTerms (cexLibFar.mkPoint 0 0) (6371000 / 6371000),
        t ∈ cexEntry.exteriorTerms) ∧
      [102] ∈ gatherExt cexStore [[11]] (gatherInt cexStore [[11]]) ∧
      findClosest cexLibFar cexStore 0 0 6371000 true = [] := by
  refine ⟨by decide, rfl, ⟨[11], by decide, by decide⟩, by decide, by decide⟩

theorem toyPolygonDec_enc (b : PolyBody) :
    toyLib.polygonDec (toyLib.polygonEnc b) = some b := by
  have h := toyPointDec_enc b []
  rw [List.append_nil] at h
  show (toyPointDec (List.replicate b 1 ++ [0])).map (fun pr => pr.1) = some b
  have hb : List.replicate b 1 ++ [0] = toyPointEnc b := rfl
  rw [hb, h]
  rfl

/-- C3: blob round-trip. Encoding any list of supported shapes with any
properties bytes and decoding the result recovers the properties
byte-for-byte and a factory whose table has one record per shape and
whose `GetShape i` returns a shape equal to the original (in particular
of the same kind with identical vertices, hence within 1e-9 radians).
Library contracts assumed: the point, polyline and polygon codecs
round-trip, `Init` accepts the bytes `Encode` produced, and (as in Go,
where lengths are 64-bit) all counts fit in 64 bits. -/
theorem c3_blob_roundtrip (L : S2Lib) (shapes : List S2ShapeM) (props : Bytes)
    (hpt : ∀ p r, L.pointDec (L.pointEnc p ++ r) = some (p, r))
    (hpl : ∀ pts, L.polylineDec (L.polylineEnc pts) = some pts)
    (hpg : ∀ b, L.polygonDec (L.polygonEnc b) = some b)
    (hidx : L.indexOk (L.indexEnc shapes) = true)
    (hp : props.length < 2 ^ 64) (hs : shapes.length < 2 ^ 64)
    (hb : ∀ s ∈ shapes, (encBody L s).length < 2 ^ 64)
    (hcnt : ∀ pts, S2ShapeM.pointVector pts ∈ shapes → pts.length < 2 ^ 64) :
    decodeFullEntry L (encodeFullEntry L shapes props)
        = some (props, mkInfos L shapes (blobHeader shapes props).length, L.indexEnc shapes)
      ∧ (mkInfos L shapes (blobHeader shapes props).length).length = shapes.length
      ∧ ∀ i (hi : i < shapes.length),
          getShape L (encodeFullEntry L shapes props)
              (mkInfos L shapes (blobHeader shapes props).length) i
            = some (shapes.get ⟨i, hi⟩) :=
  ⟨decodeFullEntry_encode L shapes props hp hs hb hidx, mkInfos_length L shapes _,
    fun i hi => getShape_encode L shapes props hpt hpl hpg hcnt i hi⟩

/-- Witness for C3 at one shape of each kind under the toy codecs. -/
theorem c3_blob_roundtrip_witness :
    decodeFullEntry toyLib
        (encodeFullEntry toyLib [.pointVector [2], .polyline [1, 3], .polygon 5] [7, 7])
        = some ([7, 7],
            mkInfos toyLib [.pointVector [2], .polyline [1, 3], .polygon 5]
              (blobHeader [.pointVector [2], .polyline [1, 3], .polygon 5] [7, 7]).length,
            toyLib.indexEnc [.pointVector [2], .polyline [1, 3], .polygon 5])
      ∧ (mkInfos toyLib [.pointVector [2], .polyline [1, 3], .polygon 5]
          (blobHeader [.pointVector [2], .polyline [1, 3], .polygon 5] [7, 7]).length).length
          = 3
      ∧ ∀ i (hi : i < ([(.pointVector [2] : S2ShapeM), .polyline [1, 3], .polygon 5]).length),
          getShape toyLib
              (encodeFullEntry toyLib [.pointVector [2], .polyline [1, 3], .polygon 5] [7, 7])
              (mkInfos toyLib [.pointVector [2], .polyline [1, 3], .polygon 5]
                (blobHeader [.pointVector [2], .polyline [1, 3], .polygon 5] [7, 7]).length) i
            = some (([(.pointVector [2] : S2ShapeM), .polyline [1, 3], .polygon 5]).get ⟨i, hi⟩) :=
  c3_blob_roundtrip toyLib [.pointVector [2], .polyline [1, 3], .polygon 5] [7, 7]
    (fun p r => toyPointDec_enc p r) (fun pts => toyPolylineDec_enc pts)
    (fun b => toyPolygonDec_enc b) (by decide) (by decide) (by decide)
    (by decide)
    (by
      intro pts hmem
      simp only [List.mem_cons, List.not_mem_nil, or_false] at hmem
      rcases hmem with h | h | h
      · injection h with h2
        rw [h2]
        decide
      · cases h
      · cases h)

/-- Counterexample to C4 as stated: a blob whose single shape record
carries the unknown type byte 9 decodes without any error -
`decodeFullEntry` keeps the byte in the table - and `GetShape` then
silently returns a nil shape. -/
theorem c4_counterexample :
    decodeFullEntry toyLib [0, 1, 9, 0, 0] = some ([], [⟨4, 0, 9⟩], [0]) ∧
      getShape toyLib [0, 1, 9, 0, 0] [⟨4, 0, 9⟩] 0 = none := by
  exact ⟨by decide, by decide⟩

/-- C4 amended: a truncated properties field and an overlong (10-byte,
unterminated) length varint do make `decodeFullEntry` fail, but a shape
type byte outside 1..3 does not: the blob decodes (when otherwise
well-formed) and `GetShape` returns a nil shape for that record instead
of an error. -/
theorem c4_decode_errors (L : S2Lib) :
    (∀ (props body idx : Bytes) (typ : Nat),
      L.indexOk idx = true →
      props.length < 2 ^ 64 → body.length < 2 ^ 64 →
      typ ≠ 1 → typ ≠ 2 → typ ≠ 3 →
      ∃ infos,
        decodeFullEntry L (putUvarint props.length ++ (props ++ (putUvarint 1
            ++ (typ :: (putUvarint body.length ++ (body ++ idx))))))
          = some (props, infos, idx) ∧
        getShape L (putUvarint props.length ++ (props ++ (putUvarint 1
            ++ (typ :: (putUvarint body.length ++ (body ++ idx)))))) infos 0 = none) ∧
    (∀ (n : Nat) (rest : Bytes), n < 2 ^ 64 → rest.length < n →
      decodeFullEntry L (putUvarint n ++ rest) = none) ∧
    (∀ rest : Bytes, decodeFullEntry L (List.replicate 10 255 ++ rest) = none) := by
  refine ⟨?_, ?_, ?_⟩
  · intro props body idx typ hidx hp hblen h1 h2 h3
    refine ⟨[⟨(putUvarint props.length).length + props.length + 1 + 1
      + (putUvarint body.length).length, body.length, typ⟩], ?_, ?_⟩
    · rw [decodeFullEntry, readUvarint_putUvarint hp]
      dsimp only
      have hnlt : ¬ (props ++ (putUvarint 1
          ++ (typ :: (putUvarint body.length ++ (body ++ idx))))).length < props.length := by
        simp [List.length_append]
      rw [if_neg hnlt, List.take_left, List.drop_left,
        readUvarint_putUvarint (by norm_num : (1 : Nat) < 2 ^ 64)]
      dsimp only
      rw [scanShapeInfos]
      rw [readUvarint_putUvarint hblen]
      dsimp only
      rw [List.drop_left]
      rw [scanShapeInfos]
      dsimp only
      have hofs : (putUvarint props.length ++ (props ++ (putUvarint 1
            ++ (typ :: (putUvarint body.length ++ (body ++ idx)))))).length
            - (body ++ idx).length
          = (putUvarint props.length).length + props.length + 1 + 1
            + (putUvarint body.length).length := by
        have h11 : (putUvarint 1).length = 1 := by
          rw [putUvarint_small (by norm_num)]
          rfl
        simp only [List.length_append, List.length_cons, h11]
        omega
      rw [hofs, hidx]
      simp
    · rw [getShape]
      simp only [List.getElem?_cons_zero]
      rw [if_neg (by simpa using h1), if_neg (by simpa using h2), if_neg (by simpa using h3)]
  · intro n rest hn hlen
    rw [decodeFullEntry, readUvarint_putUvarint hn]
    dsimp only
    rw [if_pos hlen]
  · intro rest
    rw [decodeFullEntry]
    have hnone : readUvarint (List.replicate 10 255 ++ rest) = none := by
      simp only [readUvarint, List.replicate_succ, List.cons_append, List.nil_append]
      rw [readUvarintLoop.eq_def]
      norm_num
      rw [readUvarintLoop.eq_def]
      norm_num
      rw [readUvarintLoop.eq_def]
      norm_num
      rw [readUvarintLoop.eq_def]
      norm_num
      rw [readUvarintLoop.eq_def]
      norm_num
      rw [readUvarintLoop.eq_def]
      norm_num
      rw [readUvarintLoop.eq_def]
      norm_num
      rw [readUvarintLoop.eq_def]
      norm_num
      rw [readUvarintLoop.eq_def]
      norm_num
      rw [readUvarintLoop.eq_def]
      norm_num
      rw [readUvarintLoop.eq_def]
      norm_num
    rw [hnone]

/-- Witness for the amended C4 at concrete blobs. -/
theorem c4_decode_errors_witness :
    (∃ infos,
      decodeFullEntry toyLib (putUvarint ([] : Bytes).length ++ (([] : Bytes) ++ (putUvarint 1
          ++ (9 :: (putUvarint ([] : Bytes).length ++ (([] : Bytes) ++ [0]))))))
        = some ([], infos, [0]) ∧
      getShape toyLib (putUvarint ([] : Bytes).length ++ (([] : Bytes) ++ (putUvarint 1
          ++ (9 :: (putUvarint ([] : Bytes).length ++ (([] : Bytes) ++ [0])))))) infos 0 = none) ∧
    decodeFullEntry toyLib (putUvarint 2 ++ [7]) = none ∧
    decodeFullEntry toyLib (List.replicate 10 255 ++ []) = none := by
  refine ⟨?_, ?_, ?_⟩
  · exact (c4_decode_errors toyLib).1 [] [] [0] 9 (by decide) (by decide) (by decide)
      (by decide) (by decide) (by decide)
  · exact (c4_decode_errors toyLib).2.1 2 [7] (by decide) (by decide)
  · exact (c4_decode_errors toyLib).2.2 []

/-- Witness for C7: a point feature gets no interior and one exterior
term; the test polygon gets both. -/
theorem c7_interior_exterior_terms_witness :
    (∃ e, prepareIndexEntry toyLib [103] ⟨.point (0, 0), 0⟩ = some e ∧
      e.interiorTerms = [] ∧ e.exteriorTerms ≠ []) ∧
    (∃ e, prepareIndexEntry toyLib [104] cexFeature = some e ∧
      e.interiorTerms ≠ [] ∧ e.exteriorTerms ≠ []) := by
  have hIntCov : ∀ reg c, c ∈ toyLib.interiorCovering reg →
      regionContainsCell toyLib reg c = true := by
    intro reg c hc
    cases reg with
    | pointRegion p => simp [toyLib] at hc
    | polylineRegion pts => simp [toyLib] at hc
    | polygonRegion b => rfl
  have hc7 := c7_interior_exterior_terms toyLib hIntCov rfl
  constructor
  · have h := hc7.1 [103] ⟨.point (0, 0), 0⟩ [.pointVector [0]] [.pointRegion 0]
      ⟨[103], [0, 1, 1, 2, 1, 0, 0], [], [[11]]⟩ (by decide) (by decide) (by decide)
      (by decide) (by decide)
    exact ⟨⟨[103], [0, 1, 1, 2, 1, 0, 0], [], [[11]]⟩, by decide, h.1, h.2⟩
  · have h := hc7.2 [104] cexFeature [.polygon 5] [.polygonRegion 5]
      ⟨[104], [0, 1, 3, 6, 1, 1, 1, 1, 1, 0, 0], [[12]], [[11]]⟩ (by decide) (by decide)
      (by decide) (by decide) (by decide)
    exact ⟨⟨[104], [0, 1, 3, 6, 1, 1, 1, 1, 1, 0, 0], [[12]], [[11]]⟩, by decide, h.1, h.2⟩

/-- Witness for C10 at a concrete store and query: the `false` call is
the geometry-stripped image of the `true` call. -/
theorem c10_geometry_flag_witness :
    findClosest toyLib cexStore 0 0 6371000 false
      = (findClosest toyLib cexStore 0 0 6371000 true).map stripGeom :=
  (c10_geometry_flag toyLib cexStore 0 0 6371000).1
